import Mathlib

/-!
# go-storage: a shallow embedding of the two storage backends

The development follows the Go sources:

* `storage.go`        : `ObjectVisibility` and its three constants;
* `utils.go`          : `mkdirIfNotExists`, `isFileExists`;
* `storage_local.go`  : the local backend (`Read`, `Put`, `Delete`, `Copy`, `URL`,
                        `Exist`, `SetVisibility`, `GetVisibility`, `makeObjectPublic`);
* `storage_oss.go`    : the remote backend (`cleanOSSObjectPath`, `getACLOSSOrError`,
                        and the operations, each seen as the SDK call it issues).

The Go standard library and the operating system are modelled as far as the code
uses them: lexical path cleaning (`path.Clean`, `filepath.Join`, `filepath.Dir`) and
a file system with directories, regular files, inodes and hard links
(`os.Stat`, `os.MkdirAll`, `os.Create`, `os.Open`, `os.Remove`, `os.Link`).
Paths are Unix paths: the separator is the slash and `filepath.ToSlash` is the
identity.  Strings are sequences of characters; cleaning only looks at slashes and
dots, which are single bytes of UTF-8.  A cleaned path is kept in parsed form (`FPath`): rooted or not, and its
elements.  The file system binds cleaned paths to directories and regular files;
it does not know where the working directory lies nor what it is called in its
parent, so a rooted path, an unrooted path and a path through `..` are different
names.  The root, the working directory and its ancestors
(the paths of `..` elements only) are directories in every file system.  A name
with a NUL character, a path of 4096 bytes or more and a path element of more
than 255 bytes are refused (EINVAL, ENAMETOOLONG).  The device may accept a
limited number of further bytes (`quota`): a write beyond it stores what fits
and fails with ENOSPC.  There are no permissions and no symbolic links.

A call of a Go function either returns or panics (`Outcome`); a method that
changes the file system gives the new file system together with its outcome.
-/

set_option autoImplicit false

namespace GoStorage

/-! ## Lexical paths -/

/-- Cut a path at every slash: the elements between the separators, empty ones
included. -/
def splitSlash : List Char → List (List Char)
  | [] => [[]]
  | c :: cs =>
    if c = '/' then [] :: splitSlash cs
    else match splitSlash cs with
      | [] => [[c]]
      | seg :: segs => (c :: seg) :: segs

/-- The elements of a path string. -/
def segments (s : String) : List String :=
  (splitSlash s.data).map String.mk

/-- A cleaned path in parsed form: whether it starts at the root directory, and
its elements in order.  An unrooted path starts at the working directory; its
leading elements may be `..`. -/
structure FPath where
  rooted : Bool
  comps : List String
deriving DecidableEq, Repr

/-- In `Clean`: the output buffer holds an element that a `..` can remove
(`out.w > dotdot`).  The buffer is kept last element first. -/
def canBacktrack : List String → Bool
  | top :: _ => top != ".."
  | [] => false

/-- One round of the loop of `Clean`: an empty element and `.` are skipped, `..`
removes the last element when there is one, is dropped at the root, and is kept
in front of an unrooted path; any other element is appended. -/
def cleanStep (rooted : Bool) (out : List String) (seg : String) : List String :=
  if seg = "" ∨ seg = "." then out
  else if seg = ".." then
    if canBacktrack out then out.tail
    else if rooted then out
    else ".." :: out
  else seg :: out

/-- Whether a path string starts with the separator. -/
def isRooted (s : String) : Bool :=
  s.data.head? = some '/'

/-- The loop of `Clean` over a whole path string, result in parsed form. -/
def cleanPath (s : String) : FPath :=
  ⟨isRooted s, ((segments s).foldl (cleanStep (isRooted s)) []).reverse⟩

/-- The string of a cleaned path: `/` or `.` for a path without elements. -/
def FPath.render (p : FPath) : String :=
  if p.rooted then "/" ++ "/".intercalate p.comps
  else if p.comps = [] then "." else "/".intercalate p.comps

/-- Go's `path.Clean` (and `filepath.Clean` on Unix). -/
def path.Clean (s : String) : String :=
  (cleanPath s).render

/-- Go's `filepath.ToSlash` on Unix, where the separator is the slash. -/
def filepath.ToSlash (s : String) : String := s

/-- A path value handed to the operating system: `none` is the empty string, any
other value is a cleaned path. -/
abbrev GoPath := Option FPath

/-- Go's `filepath.Join` of two elements: empty elements in front are ignored,
the rest is joined with the separator and cleaned; two empty elements give the
empty string. -/
def filepath.Join (a b : String) : GoPath :=
  if a ≠ "" then some (cleanPath (a ++ "/" ++ b))
  else if b ≠ "" then some (cleanPath b)
  else none

/-- Go's `filepath.Dir` on a cleaned path: the path without its last element;
`.` for the empty string. -/
def filepath.Dir : GoPath → GoPath
  | none => some ⟨false, []⟩
  | some p => some ⟨p.rooted, p.comps.dropLast⟩

/-- The elements of `a` are the first elements of `b`. -/
def FPath.leads (a b : FPath) : Prop :=
  a.rooted = b.rooted ∧ a.comps <+: b.comps

instance (a b : FPath) : Decidable (FPath.leads a b) := by
  unfold FPath.leads; exact inferInstance

/-- The path `b` lies in the tree at `a`: it is `a` or a descendant of `a`, that
is, `a` followed by elements none of which is `..`. -/
def FPath.within (a b : FPath) : Prop :=
  a.rooted = b.rooted ∧ a.comps <+: b.comps ∧ ".." ∉ b.comps.drop a.comps.length

instance (a b : FPath) : Decidable (FPath.within a b) := by
  unfold FPath.within; exact inferInstance

/-- Whether the elements of an object path stay at or below the directory they
start in: `depth` counts the elements a `..` may still remove. -/
def staysInside : Nat → List String → Bool
  | _, [] => true
  | depth, seg :: rest =>
    if seg = "" ∨ seg = "." then staysInside depth rest
    else if seg = ".." then
      match depth with
      | 0 => false
      | d + 1 => staysInside d rest
    else staysInside (depth + 1) rest

/-- The elements of an object path relative to the directory it starts in. -/
def relComps (objectPath : String) : List String :=
  ((segments objectPath).foldl (cleanStep false) []).reverse

/-- An object path that stays at or below the root it is joined to. -/
def insideRoot (objectPath : String) : Bool :=
  staysInside 0 (segments objectPath)

/-! ## storage.go -/

/-- The Go type `ObjectVisibility`, a string type. -/
abbrev ObjectVisibility := String

def ObjectPrivate : ObjectVisibility := "private"
def ObjectPublicReadWrite : ObjectVisibility := "public-read-write"
def ObjectPublicRead : ObjectVisibility := "public-read"

/-! ## The file system -/

/-- The error numbers the model distinguishes. -/
inductive Errno
  | ENOENT | ENOTDIR | EISDIR | EEXIST | EPERM | EBADF | ENOTEMPTY | ENOSPC
  | ENAMETOOLONG | EINVAL | EBUSY
deriving DecidableEq, Repr

/-- A Go `error` value: an error of the operating system, or a formatted message
(`fmt.Errorf`). -/
inductive GoErr
  | sys (e : Errno)
  | msg (text : String)
deriving DecidableEq, Repr

deriving instance DecidableEq for Except

/-- What a name refers to: a directory, or a regular file given by its inode. -/
inductive Node
  | dir
  | file (ino : Nat)
deriving DecidableEq, Repr

/-- Whether a node is a directory (`FileInfo.IsDir`). -/
def Node.IsDir : Node → Bool
  | .dir => true
  | .file _ => false

abbrev Bytes := List (Fin 256)

/-- A file system: the name table, the content of every inode, the next unused
inode number, and the number of bytes the device still accepts (`none`: no
limit).  Several names may refer to one inode (hard links). -/
structure FS where
  entries : List (FPath × Node)
  data : Nat → Bytes
  next : Nat
  quota : Option Nat

/-- The first binding of a name in a name table. -/
def lookupPath (p : FPath) : List (FPath × Node) → Option Node
  | [] => none
  | (q, n) :: es => if q = p then some n else lookupPath p es

/-- A path without elements or of `..` elements only: the root, the working
directory or one of its ancestors. -/
def FPath.isDots (p : FPath) : Bool :=
  p.comps.all fun c => decide (c = "..")

/-- The node a name refers to.  The root, the working directory and its
ancestors are directories; any other name is looked up in the name table. -/
def FS.entry (fs : FS) (p : FPath) : Option Node :=
  if p.isDots then some .dir else lookupPath p fs.entries

/-- Bind a name. -/
def FS.setEntry (fs : FS) (p : FPath) (n : Node) : FS :=
  { fs with entries := (p, n) :: fs.entries }

/-- Unbind a name. -/
def FS.delEntry (fs : FS) (p : FPath) : FS :=
  { fs with entries := fs.entries.filter fun e => e.1 ≠ p }

/-- Replace the content of an inode. -/
def FS.setData (fs : FS) (ino : Nat) (c : Bytes) : FS :=
  { fs with data := fun i => if i = ino then c else fs.data i }

/-- The file system without any file, on a device without limit. -/
def FS.init : FS :=
  { entries := [], data := fun _ => [], next := 0, quota := none }

/-- The file system without any file, on a device that accepts `q` more bytes. -/
def FS.limited (q : Nat) : FS :=
  { FS.init with quota := some q }

/-- The strict ancestors of a path, nearest to the start first. -/
def FPath.ancestors (p : FPath) : List FPath :=
  (List.range p.comps.length).map fun k => ⟨p.rooted, p.comps.take k⟩

/-- The limits of Linux on the bytes of a path element and of a path. -/
def NAME_MAX : Nat := 255
def PATH_MAX : Nat := 4096

/-- A path element of more than `NAME_MAX` bytes. -/
def nameTooLong (c : String) : Bool :=
  decide (NAME_MAX < c.utf8ByteSize)

/-- The error of a path string as a whole: EINVAL for a NUL character (Go's
`syscall.BytePtrFromString`), ENAMETOOLONG for `PATH_MAX` bytes or more. -/
def FPath.pathErr (p : FPath) : Option Errno :=
  if p.comps.any (fun c => c.data.any fun ch => decide (ch = Char.ofNat 0)) then some .EINVAL
  else if PATH_MAX ≤ p.render.utf8ByteSize then some .ENAMETOOLONG
  else none

/-- The file system accepts the path and each of its elements as names. -/
def FPath.namesOk (p : FPath) : Bool :=
  p.pathErr.isNone && p.comps.all fun c => !nameTooLong c

/-- Walk the elements `rest` from the directory `pre`: each element is looked up
in a directory (ENOENT when that is missing, ENOTDIR when it is a regular file),
and the look-up of an element that is too long fails with ENAMETOOLONG.  The
last element is not resolved. -/
def FS.walkFrom (fs : FS) (rooted : Bool) : List String → List String → Except Errno Unit
  | _, [] => .ok ()
  | pre, c :: rest =>
    match fs.entry ⟨rooted, pre⟩ with
    | some .dir =>
      if nameTooLong c then .error .ENAMETOOLONG
      else FS.walkFrom fs rooted (pre ++ [c]) rest
    | some (.file _) => .error .ENOTDIR
    | none => .error .ENOENT

/-- Walk the directories that lead to a path. -/
def FS.walk (fs : FS) (p : FPath) : Except Errno Unit :=
  match p.pathErr with
  | some e => .error e
  | none => fs.walkFrom p.rooted [] p.comps

/-- The system call `stat` on a cleaned path. -/
def FS.stat (fs : FS) (p : FPath) : Except Errno Node :=
  match fs.walk p with
  | .error e => .error e
  | .ok () =>
    match fs.entry p with
    | none => .error .ENOENT
    | some n => .ok n

/-- Go's `os.Stat`; the empty path does not exist. -/
def os.Stat (fs : FS) : GoPath → Except Errno Node
  | none => .error .ENOENT
  | some p => fs.stat p

/-- Go's `os.IsNotExist`: true of ENOENT only (not of ENOTDIR), and false of a
nil error. -/
def os.IsNotExist : Option Errno → Bool
  | some .ENOENT => true
  | _ => false

/-- The error of a result, nil when there is none. -/
def errOf {α : Type} : Except Errno α → Option Errno
  | .error e => some e
  | .ok _ => none

/-- Go's `os.Mkdir`: the parent must be a directory and the name unused. -/
def FS.mkdir (fs : FS) (p : FPath) : FS × Option Errno :=
  match fs.walk p with
  | .error e => (fs, some e)
  | .ok () =>
    match fs.entry p with
    | some _ => (fs, some .EEXIST)
    | none => (fs.setEntry p .dir, none)

/-- Go's `os.MkdirAll` on the elements of the path, last element first: done if
the path is a directory, an error if it is a file; otherwise the parent is made
first and then the directory itself. -/
def FS.mkdirAll (fs : FS) (rooted : Bool) : List String → FS × Option Errno
  | [] =>
    match fs.stat ⟨rooted, []⟩ with
    | .ok n => (fs, if n.IsDir then none else some .ENOTDIR)
    | .error _ => fs.mkdir ⟨rooted, []⟩
  | c :: parent =>
    match fs.stat ⟨rooted, (c :: parent).reverse⟩ with
    | .ok n => (fs, if n.IsDir then none else some .ENOTDIR)
    | .error _ =>
      match FS.mkdirAll fs rooted parent with
      | (fs1, some e) => (fs1, some e)
      | (fs1, none) =>
        match fs1.mkdir ⟨rooted, (c :: parent).reverse⟩ with
        | (fs2, none) => (fs2, none)
        | (fs2, some e) =>
          match fs2.stat ⟨rooted, (c :: parent).reverse⟩ with
          | .ok .dir => (fs2, none)
          | _ => (fs2, some e)

/-- Go's `os.MkdirAll`. -/
def os.MkdirAll (fs : FS) : GoPath → FS × Option Errno
  | none => (fs, some .ENOENT)
  | some p => fs.mkdirAll p.rooted p.comps.reverse

/-- Go's `os.Create` (open for writing, create, truncate): an existing file is
emptied and keeps its inode, a missing one gets a new inode.  The result is the
inode of the open file. -/
def os.Create (fs : FS) : GoPath → Except Errno (FS × Nat)
  | none => .error .ENOENT
  | some p =>
    match fs.walk p with
    | .error e => .error e
    | .ok () =>
      match fs.entry p with
      | some .dir => .error .EISDIR
      | some (.file i) => .ok (fs.setData i [], i)
      | none => .ok ({ (fs.setEntry p (.file fs.next)).setData fs.next [] with
                        next := fs.next + 1 }, fs.next)

/-- Go's `os.Open` (read only): the node that the handle refers to. -/
def os.Open (fs : FS) (p : GoPath) : Except Errno Node :=
  os.Stat fs p

/-- Reading a handle to its end (`ioutil.ReadAll`). -/
def readAll (fs : FS) : Node → Except Errno Bytes
  | .dir => .error .EISDIR
  | .file i => .ok (fs.data i)

/-- The bytes of a source that a device with the given quota stores. -/
def accepted (quota : Option Nat) (source : Bytes) : Bytes :=
  match quota with
  | none => source
  | some q => source.take q

/-- The device accepts the whole source. -/
def fits (quota : Option Nat) (source : Bytes) : Bool :=
  match quota with
  | none => true
  | some q => decide (source.length ≤ q)

/-- Go's `io.Copy` into a file opened by `os.Create`: the source is written at
the start of the emptied file; when the device does not accept all of it, what
fits is written and the write fails with ENOSPC. -/
def io.Copy (fs : FS) (file : Nat) (source : Bytes) : FS × Option GoErr :=
  match fs.quota with
  | none => (fs.setData file source, none)
  | some q =>
    if source.length ≤ q then
      ({ fs.setData file source with quota := some (q - source.length) }, none)
    else
      ({ fs.setData file (source.take q) with quota := some 0 }, some (.sys .ENOSPC))

/-- Go's `io.Copy` into a handle opened read only by `os.Open`, from a handle
opened by `os.Open` (on Linux through `copy_file_range`): EISDIR when one of the
two is a directory, else EBADF, the destination not being open for writing.
Nothing is written. -/
def io.CopyReadOnly (_fs : FS) (dest : Node) (source : Node) : Option GoErr :=
  match dest, source with
  | .file _, .file _ => some (.sys .EBADF)
  | _, _ => some (.sys .EISDIR)

/-- Whether a directory has no entry below it. -/
def FS.isEmptyDir (fs : FS) (p : FPath) : Bool :=
  fs.entries.all fun e => !(decide (p.leads e.1) && decide (e.1 ≠ p))

/-- Go's `os.Remove`: unlinks a file, removes an empty directory.  The root, the
working directory and its ancestors are not removed. -/
def os.Remove (fs : FS) : GoPath → FS × Option Errno
  | none => (fs, some .ENOENT)
  | some p =>
    match fs.stat p with
    | .error e => (fs, some e)
    | .ok (.file _) => (fs.delEntry p, none)
    | .ok .dir =>
      if p.isDots then
        (fs, some (if p.comps = [] then (if p.rooted then .EBUSY else .EINVAL) else .ENOTEMPTY))
      else if fs.isEmptyDir p then (fs.delEntry p, none)
      else (fs, some .ENOTEMPTY)

/-- Go's `os.Link`: a new name for the inode of an existing regular file. -/
def os.Link (fs : FS) (oldname newname : GoPath) : FS × Option Errno :=
  match os.Stat fs oldname with
  | .error e => (fs, some e)
  | .ok .dir => (fs, some .EPERM)
  | .ok (.file i) =>
    match newname with
    | none => (fs, some .ENOENT)
    | some q =>
      match fs.walk q with
      | .error e => (fs, some e)
      | .ok () =>
        match fs.entry q with
        | some _ => (fs, some .EEXIST)
        | none => (fs.setEntry q (.file i), none)

/-- How a call of a Go function ends: it returns, or it panics. -/
inductive Outcome (α : Type)
  | returned (a : α)
  | panicked
deriving DecidableEq, Repr

/-! ## utils.go -/

/-- The function `mkdirIfNotExists` of utils.go. -/
def mkdirIfNotExists (fs : FS) (path : GoPath) : FS × Option Errno :=
  let err := errOf (os.Stat fs path)
  if os.IsNotExist err then os.MkdirAll fs path
  else (fs, err)

/-- The function `isFileExists` of utils.go.  When `os.Stat` fails with an error
other than not-exist, `stat` is nil and `stat.IsDir()` panics. -/
def isFileExists (fs : FS) (path : GoPath) : Outcome Bool :=
  match os.Stat fs path with
  | .error e => if os.IsNotExist (some e) then .returned false else .panicked
  | .ok stat => .returned (!stat.IsDir)

/-! ## storage_local.go -/

/-- The struct `storageLocalFile` (the signed-URL builder is used by
`TemporaryURL` only and left out). -/
structure storageLocalFile where
  baseDir : String
  publicBaseDir : String
  publicBaseURL : String

namespace Local

/-- The method `Read`: the handle `os.Open` gives. -/
def Read (s : storageLocalFile) (fs : FS) (objectPath : String) : Except Errno Node :=
  os.Open fs (filepath.Join s.baseDir objectPath)

/-- The content that `Read` followed by reading the stream to its end yields. -/
def ReadAll (s : storageLocalFile) (fs : FS) (objectPath : String) : Except Errno Bytes :=
  match Read s fs objectPath with
  | .error e => .error e
  | .ok h => readAll fs h

def checkAndCreateParentDirectory (fs : FS) (filePath : GoPath) : FS × Option Errno :=
  mkdirIfNotExists fs (filepath.Dir filePath)

/-- The method `makeObjectPublic`. -/
def makeObjectPublic (s : storageLocalFile) (fs : FS) (objectPath : String) :
    FS × Outcome (Option GoErr) :=
  let publicPath := filepath.Join s.publicBaseDir objectPath
  match checkAndCreateParentDirectory fs publicPath with
  | (fs1, some err) => (fs1, .returned (some (.sys err)))
  | (fs1, none) =>
    match isFileExists fs1 publicPath with
    | .panicked => (fs1, .panicked)
    | .returned found =>
      match (if found then os.Remove fs1 publicPath else (fs1, none)) with
      | (fs2, some err) => (fs2, .returned (some (.sys err)))
      | (fs2, none) =>
        let filePath := filepath.Join s.baseDir objectPath
        match os.Link fs2 filePath publicPath with
        | (fs3, some err) => (fs3, .returned (some (.sys err)))
        | (fs3, none) => (fs3, .returned none)

/-- The method `Put`. -/
def Put (s : storageLocalFile) (fs : FS) (objectPath : String) (source : Bytes)
    (visibility : ObjectVisibility) : FS × Outcome (Option GoErr) :=
  let filePath := filepath.Join s.baseDir objectPath
  match checkAndCreateParentDirectory fs filePath with
  | (fs1, some err) => (fs1, .returned (some (.sys err)))
  | (fs1, none) =>
    match os.Create fs1 filePath with
    | .error err => (fs1, .returned (some (.sys err)))
    | .ok (fs2, file) =>
      match io.Copy fs2 file source with
      | (fs3, err) =>
        if visibility = ObjectPublicRead ∨ visibility = ObjectPublicReadWrite then
          makeObjectPublic s fs3 objectPath
        else (fs3, .returned err)

/-- The method `Delete`. -/
def Delete (s : storageLocalFile) (fs : FS) : List String → FS × Outcome (Option GoErr)
  | [] => (fs, .returned none)
  | objectPath :: rest =>
    let publicPath := filepath.Join s.publicBaseDir objectPath
    match isFileExists fs publicPath with
    | .panicked => (fs, .panicked)
    | .returned pubFound =>
      match (if pubFound then os.Remove fs publicPath else (fs, none)) with
      | (fs1, some err) => (fs1, .returned (some (.sys err)))
      | (fs1, none) =>
        let privatePath := filepath.Join s.baseDir objectPath
        match isFileExists fs1 privatePath with
        | .panicked => (fs1, .panicked)
        | .returned privFound =>
          match (if privFound then os.Remove fs1 privatePath else (fs1, none)) with
          | (fs2, some err) => (fs2, .returned (some (.sys err)))
          | (fs2, none) => Delete s fs2 rest

/-- The method `Copy`: both files are opened with `os.Open`, read only. -/
def Copy (s : storageLocalFile) (fs : FS) (srcObjectPath dstObjectPath : String) :
    FS × Outcome (Option GoErr) :=
  let sourceFilePath := filepath.Join s.baseDir srcObjectPath
  match checkAndCreateParentDirectory fs sourceFilePath with
  | (fs1, some err) => (fs1, .returned (some (.sys err)))
  | (fs1, none) =>
    match os.Open fs1 sourceFilePath with
    | .error err => (fs1, .returned (some (.sys err)))
    | .ok sourceStream =>
      let destFilePath := filepath.Join s.baseDir dstObjectPath
      match checkAndCreateParentDirectory fs1 destFilePath with
      | (fs2, some err) => (fs2, .returned (some (.sys err)))
      | (fs2, none) =>
        match os.Open fs2 destFilePath with
        | .error err => (fs2, .returned (some (.sys err)))
        | .ok destStream => (fs2, .returned (io.CopyReadOnly fs2 destStream sourceStream))

/-- The error of `URL` for an object without a public entry. -/
def errNotFound : GoErr := .msg "local file does not exists"

/-- The method `URL`.  The functions of `net/url` and `path.Join` that build the
string are the parameter `buildURL` (base URL, object path). -/
def URL (s : storageLocalFile) (buildURL : String → String → Except GoErr String)
    (fs : FS) (objectPath : String) : Outcome (Except GoErr String) :=
  if objectPath = "" then .returned (.ok "")
  else
    let filePath := filepath.Join s.publicBaseDir objectPath
    match isFileExists fs filePath with
    | .panicked => .panicked
    | .returned found =>
      if !found then .returned (.error errNotFound)
      else .returned (buildURL s.publicBaseURL objectPath)

/-- The method `Exist`: the pair of the answer and the error. -/
def Exist (s : storageLocalFile) (fs : FS) (objectPath : String) : Bool × Option GoErr :=
  match os.Stat fs (filepath.Join s.baseDir objectPath) with
  | .error err =>
    if os.IsNotExist (some err) then (false, none) else (false, some (.sys err))
  | .ok info => (!info.IsDir, none)

/-- The method `SetVisibility`. -/
def SetVisibility (s : storageLocalFile) (fs : FS) (objectPath : String)
    (visibility : ObjectVisibility) : FS × Outcome (Option GoErr) :=
  let publicPath := filepath.Join s.publicBaseDir objectPath
  if visibility = ObjectPrivate then
    match isFileExists fs publicPath with
    | .panicked => (fs, .panicked)
    | .returned found =>
      if found then
        match os.Remove fs publicPath with
        | (fs1, err) => (fs1, .returned (err.map GoErr.sys))
      else (fs, .returned none)
  else if visibility = ObjectPublicRead ∨ visibility = ObjectPublicReadWrite then
    match isFileExists fs publicPath with
    | .panicked => (fs, .panicked)
    | .returned found =>
      if !found then makeObjectPublic s fs objectPath
      else (fs, .returned none)
  else (fs, .returned (some (.msg ("err invalid object visibility: " ++ visibility))))

/-- The method `GetVisibility`. -/
def GetVisibility (s : storageLocalFile) (fs : FS) (objectPath : String) :
    Outcome (Except GoErr ObjectVisibility) :=
  let publicPath := filepath.Join s.publicBaseDir objectPath
  match isFileExists fs publicPath with
  | .panicked => .panicked
  | .returned pubFound =>
    if pubFound then .returned (.ok ObjectPublicRead)
    else
      let filePath := filepath.Join s.baseDir objectPath
      match isFileExists fs filePath with
      | .panicked => .panicked
      | .returned found =>
        if found then .returned (.ok ObjectPrivate)
        else .returned (.error (.msg ("err get visibility, object not found: " ++ objectPath)))

end Local

/-! ## storage_oss.go -/

/-- Go's `time.Duration` counts nanoseconds in an int64; the model keeps the
count as an integer. -/
abbrev Duration := Int

def time.Second : Duration := 1000000000
def time.Hour : Duration := 3600 * time.Second

/-- The ACL values of the SDK (`oss.ACLPrivate`, `oss.ACLPublicRead`,
`oss.ACLPublicReadWrite`). -/
def oss.ACLPrivate : String := "private"
def oss.ACLPublicRead : String := "public-read"
def oss.ACLPublicReadWrite : String := "public-read-write"

/-- The SDK's `oss.HTTPGet`. -/
def oss.HTTPGet : String := "GET"

/-- A call of a method of the SDK's bucket, with its arguments.  The third
argument of `SignURL` is the SDK's `expiredInSec`, a lifetime in seconds. -/
inductive SDKCall
  | GetObject (key : String)
  | PutObject (key : String) (source : Bytes) (acl : String)
  | DeleteObject (key : String)
  | DeleteObjects (keys : List String)
  | CopyObject (srcKey dstKey : String)
  | SignURL (key : String) (method : String) (expiredInSec : Int)
  | GetObjectMeta (key : String)
  | IsObjectExist (key : String)
  | SetObjectACL (key : String) (acl : String)
  | GetObjectACL (key : String)
deriving DecidableEq, Repr

namespace OSS

def ossSignedURLExpire : Duration := 24 * time.Hour

def cleanOSSObjectPath (objectPath : String) : String :=
  path.Clean (filepath.ToSlash objectPath)

/-- The function `getACLOSSOrError`. -/
def getACLOSSOrError (visibility : ObjectVisibility) : Except GoErr String :=
  if visibility = ObjectPublicRead then .ok oss.ACLPublicRead
  else if visibility = ObjectPublicReadWrite then .ok oss.ACLPublicReadWrite
  else if visibility = ObjectPrivate then .ok oss.ACLPrivate
  else .error (.msg ("err invalid object visibility: " ++ visibility))

/-- The method `Read`: the call it issues. -/
def Read (objectPath : String) : SDKCall :=
  .GetObject (cleanOSSObjectPath objectPath)

/-- The method `Put`: an error before any call, or the call it issues. -/
def Put (objectPath : String) (source : Bytes) (visibility : ObjectVisibility) :
    Except GoErr SDKCall :=
  match getACLOSSOrError visibility with
  | .ok acl => .ok (.PutObject (cleanOSSObjectPath objectPath) source acl)
  | .error err => .error err

/-- The method `Delete`: no call for no path, `DeleteObject` for one path,
`DeleteObjects` otherwise.  The loop fills `cleanedPaths`; the call is given
`objectPaths`. -/
def Delete (objectPaths : List String) : Option SDKCall :=
  match objectPaths with
  | [] => none
  | [objectPath] => some (.DeleteObject (cleanOSSObjectPath objectPath))
  | _ =>
    let _cleanedPaths : List String :=
      objectPaths.foldl (fun cleanedPaths objectPath =>
        cleanedPaths ++ [cleanOSSObjectPath objectPath]) []
    some (.DeleteObjects objectPaths)

/-- The method `Copy`. -/
def Copy (srcObjectPath dstObjectPath : String) : SDKCall :=
  .CopyObject (cleanOSSObjectPath srcObjectPath) (cleanOSSObjectPath dstObjectPath)

/-- The method `TemporaryURL`: `int64(expireIn)` is the count of nanoseconds. -/
def TemporaryURL (objectPath : String) (expireIn : Duration) : SDKCall :=
  let expireIn := if expireIn < ossSignedURLExpire then ossSignedURLExpire else expireIn
  .SignURL objectPath oss.HTTPGet expireIn

/-- The method `Size`: the call it issues. -/
def Size (objectPath : String) : SDKCall :=
  .GetObjectMeta (cleanOSSObjectPath objectPath)

/-- The method `LastModified`: the call it issues. -/
def LastModified (objectPath : String) : SDKCall :=
  .GetObjectMeta (cleanOSSObjectPath objectPath)

/-- The method `Exist`: the call it issues. -/
def Exist (objectPath : String) : SDKCall :=
  .IsObjectExist (cleanOSSObjectPath objectPath)

/-- The method `SetVisibility`. -/
def SetVisibility (objectPath : String) (visibility : ObjectVisibility) :
    Except GoErr SDKCall :=
  match getACLOSSOrError visibility with
  | .ok acl => .ok (.SetObjectACL (cleanOSSObjectPath objectPath) acl)
  | .error err => .error err

/-- The method `GetVisibility`: the call it issues, and its result for the
answer of the SDK (the ACL string, or an error). -/
def GetVisibility (objectPath : String) (answer : Except GoErr String) :
    SDKCall × Except GoErr ObjectVisibility :=
  (.GetObjectACL (cleanOSSObjectPath objectPath),
    match answer with
    | .error err => .error err
    | .ok aclType =>
      if aclType = oss.ACLPrivate then .ok ObjectPrivate
      else if aclType = oss.ACLPublicRead then .ok ObjectPublicRead
      else if aclType = oss.ACLPublicReadWrite then .ok ObjectPublicReadWrite
      else .error (.msg "invalid returned ACL value"))

/-- The seconds in a duration (`time.Duration.Seconds`, whole seconds). -/
def secondsOf (d : Duration) : Int := d / time.Second

end OSS

/-! ## Invariants of the local backend -/

/-- Every bound name can be reached: the directories that lead to it exist and
its elements are names the file system accepts. -/
def WellFormed (fs : FS) : Prop :=
  ∀ p n, fs.entry p = some n → p.isDots = false → fs.walk p = .ok ()

/-- The path of the element list `q` in the private tree. -/
def storageLocalFile.privAt (s : storageLocalFile) (q : List String) : FPath :=
  ⟨(cleanPath s.baseDir).rooted, (cleanPath s.baseDir).comps ++ q⟩

/-- The path of the element list `q` in the public tree. -/
def storageLocalFile.pubAt (s : storageLocalFile) (q : List String) : FPath :=
  ⟨(cleanPath s.publicBaseDir).rooted, (cleanPath s.publicBaseDir).comps ++ q⟩

/-- The two trees are independent: neither root lies in the tree of the other. -/
def storageLocalFile.Independent (s : storageLocalFile) : Prop :=
  ¬ (cleanPath s.baseDir).within (cleanPath s.publicBaseDir) ∧
  ¬ (cleanPath s.publicBaseDir).within (cleanPath s.baseDir)

instance (s : storageLocalFile) : Decidable s.Independent := by
  unfold storageLocalFile.Independent; exact inferInstance

/-- The relative path of an object that resolves inside the roots: joined to
the private root and to the public root, the object path gives the root followed
by the same elements, none of them `..`; `none` for an object path that leaves
a root. -/
def storageLocalFile.relOf (s : storageLocalFile) (objectPath : String) :
    Option (List String) :=
  match filepath.Join s.baseDir objectPath, filepath.Join s.publicBaseDir objectPath with
  | some a, some b =>
    if a = s.privAt (a.comps.drop (cleanPath s.baseDir).comps.length) ∧
        b = s.pubAt (a.comps.drop (cleanPath s.baseDir).comps.length) ∧
        ".." ∉ a.comps.drop (cleanPath s.baseDir).comps.length then
      some (a.comps.drop (cleanPath s.baseDir).comps.length)
    else none
  | _, _ => none

/-- Every regular file of the public tree is a hard link to the file of the
private tree at the same relative path: both names are bound to one inode. -/
def LinkInv (s : storageLocalFile) (fs : FS) : Prop :=
  ∀ q i, ".." ∉ q → fs.entry (s.pubAt q) = some (.file i) →
    fs.entry (s.privAt q) = some (.file i)

/-- Both trees are empty of objects: no name at or below either root is bound to
a regular file. -/
def TreesEmpty (s : storageLocalFile) (fs : FS) : Prop :=
  ∀ q i, ".." ∉ q →
    fs.entry (s.pubAt q) ≠ some (.file i) ∧ fs.entry (s.privAt q) ≠ some (.file i)

/-- The invariant of the local backend. -/
def Inv (s : storageLocalFile) (fs : FS) : Prop :=
  WellFormed fs ∧ LinkInv s fs

/-- The file systems that making directories leads to: each step binds an
unused name among those of `Q`, whose ancestors are directories, to a new
directory. -/
inductive DirsAdded (Q : FPath → Prop) : FS → FS → Prop
  | refl (fs : FS) : DirsAdded Q fs fs
  | step {fs fs1 : FS} {p : FPath} : DirsAdded Q fs fs1 → fs1.walk p = .ok () →
      fs1.entry p = none → Q p → DirsAdded Q fs (fs1.setEntry p .dir)

/-- What a step changes in the name table: a name keeps its binding, or is one
of the names of `P`, or was unbound, is one of the names of `Q` and is bound to
a new directory. -/
def Frame (P Q : FPath → Prop) (fs fs2 : FS) : Prop :=
  ∀ x, fs2.entry x = fs.entry x ∨ P x ∨
    (fs.entry x = none ∧ fs2.entry x = some .dir ∧ Q x)

/-- The path of one of the given objects, in the private or in the public tree. -/
def storageLocalFile.IsObjectPath (s : storageLocalFile) (paths : List String)
    (x : FPath) : Prop :=
  ∃ p ∈ paths, filepath.Join s.baseDir p = some x ∨ filepath.Join s.publicBaseDir p = some x

/-- A strict ancestor of the path of one of the given objects, in the private or
in the public tree. -/
def storageLocalFile.IsOnTheWay (s : storageLocalFile) (paths : List String)
    (x : FPath) : Prop :=
  ∃ p ∈ paths, ∃ a, (filepath.Join s.baseDir p = some a ∨
    filepath.Join s.publicBaseDir p = some a) ∧ x ∈ a.ancestors

namespace Local

/-- A call of one of the mutating methods. -/
inductive Op
  | Put (objectPath : String) (source : Bytes) (visibility : ObjectVisibility)
  | Delete (objectPaths : List String)
  | Copy (srcObjectPath dstObjectPath : String)
  | SetVisibility (objectPath : String) (visibility : ObjectVisibility)

/-- The object paths of a call. -/
def Op.paths : Op → List String
  | .Put objectPath _ _ => [objectPath]
  | .Delete objectPaths => objectPaths
  | .Copy srcObjectPath dstObjectPath => [srcObjectPath, dstObjectPath]
  | .SetVisibility objectPath _ => [objectPath]

/-- The file system a call leaves behind, whether it returns nil, returns an
error or panics. -/
def Op.apply (s : storageLocalFile) (fs : FS) : Op → FS
  | .Put objectPath source visibility => (Local.Put s fs objectPath source visibility).1
  | .Delete objectPaths => (Local.Delete s fs objectPaths).1
  | .Copy srcObjectPath dstObjectPath => (Local.Copy s fs srcObjectPath dstObjectPath).1
  | .SetVisibility objectPath visibility => (Local.SetVisibility s fs objectPath visibility).1

/-- The file system after a sequence of calls. -/
def run (s : storageLocalFile) (fs : FS) (ops : List Op) : FS :=
  ops.foldl (Op.apply s) fs

/-- Every object path of the call resolves inside the roots. -/
def Op.inside (s : storageLocalFile) (op : Op) : Bool :=
  op.paths.all fun objectPath => (s.relOf objectPath).isSome

/-- The storage of the tests (`getLocalStorage`). -/
def testStorage : storageLocalFile :=
  ⟨"storage-test/private", "storage-test/public", "http://localhost:8000/files"⟩

/-- A storage whose public root lies in the private tree. -/
def nestedStorage : storageLocalFile :=
  ⟨"data", "data/public", "http://localhost:8000/files"⟩

/-- A sequence of calls on two objects: put, made private, put below a directory,
copied and deleted. -/
def sampleOps : List Op :=
  [.Put "a.txt" [1] ObjectPublicRead,
   .SetVisibility "a.txt" ObjectPrivate,
   .Put "b/c.txt" [2] ObjectPublicReadWrite,
   .Copy "b/c.txt" "d.txt",
   .SetVisibility "a.txt" ObjectPublicRead,
   .Delete ["a.txt", "missing.txt"]]

end Local

/-! # Theorems -/

/-! ## Lexical paths -/

/-- The model of `Clean` on cases of the table Go tests `path.Clean` with, and
the model of `filepath.Join` on cases of its documentation. -/
theorem clean_join_examples :
    path.Clean "" = "." ∧ path.Clean "abc/" = "abc" ∧ path.Clean "//abc//" = "/abc" ∧
    path.Clean "abc/./def" = "abc/def" ∧ path.Clean "abc/def/../ghi/../jkl" = "abc/jkl" ∧
    path.Clean "abc/def/../../.." = ".." ∧ path.Clean "/abc/def/../../.." = "/" ∧
    path.Clean "abc/def/../../../ghi/jkl/../../../mno" = "../../mno" ∧
    path.Clean "abc/../../././../def" = "../../def" ∧
    (filepath.Join "a" "b/c").map FPath.render = some "a/b/c" ∧
    (filepath.Join "a/b" "../../../xyz").map FPath.render = some "../xyz" ∧
    (filepath.Join "a" "").map FPath.render = some "a" ∧
    (filepath.Join "" "a").map FPath.render = some "a" ∧
    (filepath.Join "" "").map FPath.render = none := by
  decide

theorem splitSlash_ne_nil (cs : List Char) : splitSlash cs ≠ [] := by
  cases cs with
  | nil => simp [splitSlash]
  | cons c cs =>
    unfold splitSlash
    split
    · simp
    · split <;> simp

theorem splitSlash_append (a b : List Char) :
    splitSlash (a ++ '/' :: b) = splitSlash a ++ splitSlash b := by
  induction a with
  | nil => simp [splitSlash]
  | cons c a ih =>
    by_cases hc : c = '/'
    · simp [splitSlash, hc, ih]
    · have hne := splitSlash_ne_nil a
      cases h : splitSlash a with
      | nil => exact absurd h hne
      | cons seg segs =>
        have e : splitSlash (c :: (a ++ '/' :: b)) =
            (match splitSlash (a ++ '/' :: b) with
              | [] => [[c]]
              | seg :: segs => (c :: seg) :: segs) := by
          simp [splitSlash, hc]
        have e2 : splitSlash (c :: a) = (c :: seg) :: segs := by
          simp [splitSlash, hc, h]
        rw [List.cons_append, e, e2, ih, h]
        rfl

theorem segments_join (r p : String) :
    segments (r ++ "/" ++ p) = segments r ++ segments p := by
  have h : (r ++ "/" ++ p).data = r.data ++ '/' :: p.data := by
    simp [String.data_append]
  simp [segments, h, splitSlash_append]

theorem isRooted_join (r p : String) (hr : r ≠ "") :
    isRooted (r ++ "/" ++ p) = isRooted r := by
  have h : (r ++ "/" ++ p).data = r.data ++ '/' :: p.data := by
    simp [String.data_append]
  have hd : r.data ≠ [] := by
    intro h0
    apply hr
    cases r
    simp_all
  unfold isRooted
  rw [h]
  cases hrd : r.data with
  | nil => exact absurd hrd hd
  | cons c cs => simp

theorem foldl_cleanStep_inside (b : Bool) (S : List String) :
    ∀ (segs T : List String), (∀ x ∈ T, x ≠ "..") → staysInside T.length segs = true →
      segs.foldl (cleanStep b) (T ++ S) = segs.foldl (cleanStep false) T ++ S ∧
      ∀ x ∈ segs.foldl (cleanStep false) T, x ≠ ".." := by
  intro segs
  induction segs with
  | nil => intro T hT _; exact ⟨rfl, hT⟩
  | cons seg rest ih =>
    intro T hT hin
    by_cases h1 : seg = "" ∨ seg = "."
    · simp only [staysInside, h1, if_true] at hin
      simp only [List.foldl_cons, cleanStep, h1, if_true]
      exact ih T hT hin
    · by_cases h2 : seg = ".."
      · subst h2
        cases T with
        | nil => simp [staysInside] at hin
        | cons t T0 =>
          have ht : t ≠ ".." := hT t (by simp)
          have hin2 : staysInside T0.length rest = true := by
            simpa [staysInside] using hin
          have e1 : cleanStep b (t :: T0 ++ S) ".." = T0 ++ S := by
            simp [cleanStep, canBacktrack, ht]
          have e2 : cleanStep false (t :: T0) ".." = T0 := by
            simp [cleanStep, canBacktrack, ht]
          simp only [List.foldl_cons, e1, e2]
          exact ih T0 (fun x hx => hT x (by simp [hx])) hin2
      · have hin2 : staysInside (seg :: T).length rest = true := by
          simpa [staysInside, h1, h2] using hin
        have e1 : cleanStep b (T ++ S) seg = (seg :: T) ++ S := by
          simp [cleanStep, h1, h2]
        have e2 : cleanStep false T seg = seg :: T := by
          simp [cleanStep, h1, h2]
        simp only [List.foldl_cons, e1, e2]
        exact ih (seg :: T) (by
          intro x hx
          rcases List.mem_cons.1 hx with h | h
          · subst h; exact h2
          · exact hT x h) hin2

/-- Joining an object path that stays inside to a non-empty root gives the
elements of the cleaned root followed by those of the object path. -/
theorem join_inside (r p : String) (hr : r ≠ "") (hp : insideRoot p = true) :
    filepath.Join r p = some ⟨(cleanPath r).rooted, (cleanPath r).comps ++ relComps p⟩ := by
  have h := foldl_cleanStep_inside (isRooted r) ((segments r).foldl (cleanStep (isRooted r)) [])
    (segments p) [] (by simp) (by simpa [insideRoot] using hp)
  simp only [List.nil_append] at h
  simp [filepath.Join, hr, cleanPath, isRooted_join r p hr, segments_join, List.foldl_append,
    h.1, relComps]

theorem relComps_no_dotdot (p : String) (hp : insideRoot p = true) :
    ".." ∉ relComps p := by
  have h := foldl_cleanStep_inside false [] (segments p) [] (by simp)
    (by simpa [insideRoot] using hp)
  intro hx
  exact h.2 ".." (by simpa [relComps] using hx) rfl

theorem within_append (a : FPath) (q : List String) (hq : ".." ∉ q) :
    a.within ⟨a.rooted, a.comps ++ q⟩ := by
  refine ⟨rfl, List.prefix_append _ _, ?_⟩
  simpa using hq

/-- Joining an object path that stays inside to a non-empty root gives a path in
the tree at the cleaned root. -/
theorem join_within (r p : String) (hr : r ≠ "") (hp : insideRoot p = true) :
    ∃ q, filepath.Join r p = some q ∧ (cleanPath r).within q :=
  ⟨_, join_inside r p hr hp, within_append _ _ (relComps_no_dotdot p hp)⟩

/-! ## Remote backend -/

/-- C9. The visibility/ACL mapping of the remote backend: `getACLOSSOrError`
succeeds exactly on the three canonical visibilities, maps each to the ACL of the
same name and fails with the invalid-visibility error on every other string; the
ACL it produces is mapped back to the same visibility by `GetVisibility`, and
`GetVisibility` fails on every ACL string outside the three. -/
theorem C9_acl_mapping_round_trip (v : ObjectVisibility) (objectPath : String) :
    ((∃ acl, OSS.getACLOSSOrError v = .ok acl) ↔
        (v = ObjectPrivate ∨ v = ObjectPublicRead ∨ v = ObjectPublicReadWrite)) ∧
    OSS.getACLOSSOrError ObjectPrivate = .ok oss.ACLPrivate ∧
    OSS.getACLOSSOrError ObjectPublicRead = .ok oss.ACLPublicRead ∧
    OSS.getACLOSSOrError ObjectPublicReadWrite = .ok oss.ACLPublicReadWrite ∧
    (¬ (v = ObjectPrivate ∨ v = ObjectPublicRead ∨ v = ObjectPublicReadWrite) →
        OSS.getACLOSSOrError v = .error (.msg ("err invalid object visibility: " ++ v))) ∧
    (∀ acl, OSS.getACLOSSOrError v = .ok acl →
        (OSS.GetVisibility objectPath (.ok acl)).2 = .ok v) ∧
    (∀ acl : String, ¬ (acl = oss.ACLPrivate ∨ acl = oss.ACLPublicRead ∨
          acl = oss.ACLPublicReadWrite) →
        (OSS.GetVisibility objectPath (.ok acl)).2 = .error (.msg "invalid returned ACL value")) := by
  have hne1 : ObjectPublicRead ≠ ObjectPrivate := by decide
  have hne2 : ObjectPublicReadWrite ≠ ObjectPrivate := by decide
  have hne3 : ObjectPublicReadWrite ≠ ObjectPublicRead := by decide
  refine ⟨?_, by decide, by decide, by decide, ?_, ?_, ?_⟩
  · constructor
    · rintro ⟨acl, h⟩
      unfold OSS.getACLOSSOrError at h
      by_cases h1 : v = ObjectPublicRead
      · exact Or.inr (Or.inl h1)
      · by_cases h2 : v = ObjectPublicReadWrite
        · exact Or.inr (Or.inr h2)
        · by_cases h3 : v = ObjectPrivate
          · exact Or.inl h3
          · simp [h1, h2, h3] at h
    · rintro (h | h | h) <;> subst h
      · exact ⟨_, rfl⟩
      · exact ⟨_, rfl⟩
      · exact ⟨_, rfl⟩
  · intro h
    simp only [not_or] at h
    simp [OSS.getACLOSSOrError, h.1, h.2.1, h.2.2]
  · intro acl h
    unfold OSS.getACLOSSOrError at h
    by_cases h1 : v = ObjectPublicRead
    · subst h1
      have : acl = oss.ACLPublicRead := by simpa using h.symm
      subst this; rfl
    · by_cases h2 : v = ObjectPublicReadWrite
      · subst h2
        have : acl = oss.ACLPublicReadWrite := by
          simp [h1] at h; exact h.symm
        subst this; rfl
      · by_cases h3 : v = ObjectPrivate
        · subst h3
          have : acl = oss.ACLPrivate := by
            simp [h1, h2] at h; exact h.symm
          subst this; rfl
        · simp [h1, h2, h3] at h
  · intro acl h
    simp only [not_or] at h
    simp [OSS.GetVisibility, h.1, h.2.1, h.2.2]

/-- C8, the code at the failing input: asked for one hour, `TemporaryURL` hands
`SignURL` the count of nanoseconds in 24 hours, 86400000000000, as its lifetime
in seconds, not 86400. -/
theorem C8_expiry_handed_in_nanoseconds :
    OSS.TemporaryURL "a.txt" time.Hour = .SignURL "a.txt" oss.HTTPGet 86400000000000 ∧
    OSS.secondsOf (max time.Hour OSS.ossSignedURLExpire) = 86400 ∧
    OSS.TemporaryURL "a.txt" time.Hour ≠
      .SignURL "a.txt" oss.HTTPGet (OSS.secondsOf (max time.Hour OSS.ossSignedURLExpire)) := by
  decide

/-- C10, the code at the failing input: for two paths, `Delete` hands the SDK's
`DeleteObjects` the paths as given, not the cleaned ones; `TemporaryURL` hands
`SignURL` the path as given as well. -/
theorem C10_bulk_delete_keys_not_cleaned :
    OSS.Delete ["a//b", "c/./d"] = some (.DeleteObjects ["a//b", "c/./d"]) ∧
    ["a//b", "c/./d"].map OSS.cleanOSSObjectPath = ["a/b", "c/d"] ∧
    OSS.Delete ["a//b", "c/./d"] ≠
      some (.DeleteObjects (["a//b", "c/./d"].map OSS.cleanOSSObjectPath)) ∧
    OSS.TemporaryURL "a//b" (48 * time.Hour) = .SignURL "a//b" oss.HTTPGet (48 * time.Hour) ∧
    OSS.cleanOSSObjectPath "a//b" = "a/b" := by
  decide

/-! ## The file system -/

theorem isDots_of_entry_none {fs : FS} {p : FPath} (h : fs.entry p = none) :
    p.isDots = false := by
  unfold FS.entry at h
  split at h
  · cases h
  · rename_i hd; simpa using hd

theorem isDots_of_entry_file {fs : FS} {p : FPath} {i : Nat}
    (h : fs.entry p = some (.file i)) : p.isDots = false := by
  unfold FS.entry at h
  split at h
  · cases h
  · rename_i hd; simpa using hd

theorem entry_of_isDots (fs : FS) {p : FPath} (h : p.isDots = true) :
    fs.entry p = some .dir := by
  simp [FS.entry, h]

theorem entry_setEntry {fs : FS} {p : FPath} (hp : p.isDots = false) (q : FPath) (n : Node) :
    (fs.setEntry p n).entry q = if q = p then some n else fs.entry q := by
  unfold FS.entry FS.setEntry
  by_cases h : q = p
  · subst h; simp [lookupPath, hp]
  · have h2 : ¬ p = q := fun e => h e.symm
    simp [lookupPath, h, h2]

theorem lookupPath_filter (p q : FPath) (es : List (FPath × Node)) :
    lookupPath q (es.filter fun e => e.1 ≠ p) = if q = p then none else lookupPath q es := by
  induction es with
  | nil => simp [lookupPath]
  | cons e es ih =>
    obtain ⟨a, n⟩ := e
    by_cases h1 : a = p
    · subst h1
      by_cases h2 : q = a
      · subst h2
        simpa [List.filter_cons, lookupPath] using ih
      · have h3 : ¬ a = q := fun e => h2 e.symm
        simpa [List.filter_cons, lookupPath, h2, h3] using ih
    · by_cases h2 : a = q
      · subst h2
        simp [List.filter_cons, lookupPath, h1]
      · simpa [List.filter_cons, lookupPath, h1, h2] using ih

theorem entry_delEntry {fs : FS} {p : FPath} (hp : p.isDots = false) (q : FPath) :
    (fs.delEntry p).entry q = if q = p then none else fs.entry q := by
  unfold FS.entry FS.delEntry
  simp only [lookupPath_filter]
  by_cases h : q = p
  · subst h; simp [hp]
  · simp [h]

@[simp] theorem entry_setData (fs : FS) (i : Nat) (c : Bytes) (q : FPath) :
    (fs.setData i c).entry q = fs.entry q := rfl

theorem mem_ancestors {p q : FPath} (h : q ∈ p.ancestors) :
    q.rooted = p.rooted ∧ q.comps.length < p.comps.length ∧ q.comps <+: p.comps := by
  unfold FPath.ancestors at h
  simp only [List.mem_map, List.mem_range] at h
  obtain ⟨k, hk, rfl⟩ := h
  refine ⟨rfl, ?_, List.take_prefix _ _⟩
  simp [List.length_take, hk]

theorem mem_ancestors_intro {p q : FPath} (hr : q.rooted = p.rooted)
    (hl : q.comps.length < p.comps.length) (hpre : q.comps <+: p.comps) :
    q ∈ p.ancestors := by
  unfold FPath.ancestors
  simp only [List.mem_map, List.mem_range]
  refine ⟨q.comps.length, hl, ?_⟩
  obtain ⟨t, ht⟩ := hpre
  cases q with
  | mk qr qc =>
    simp only at hr ht ⊢
    subst hr
    rw [← ht]
    simp

theorem ne_of_mem_ancestors {p q : FPath} (h : q ∈ p.ancestors) : q ≠ p := by
  intro e
  have := (mem_ancestors h).2.1
  rw [e] at this
  exact Nat.lt_irrefl _ this

theorem walkFrom_ok_iff (fs : FS) (rooted : Bool) :
    ∀ (rest pre : List String), fs.walkFrom rooted pre rest = .ok () ↔
      (∀ k, k < rest.length → fs.entry ⟨rooted, pre ++ rest.take k⟩ = some .dir) ∧
      (∀ c ∈ rest, nameTooLong c = false) := by
  intro rest
  induction rest with
  | nil => intro pre; simp [FS.walkFrom]
  | cons c rest ih =>
    intro pre
    unfold FS.walkFrom
    have h0 : ∀ P : Prop, ((∀ k, k < (c :: rest).length →
        fs.entry ⟨rooted, pre ++ (c :: rest).take k⟩ = some .dir) → P) →
        fs.entry ⟨rooted, pre⟩ ≠ some .dir → ¬ ((∀ k, k < (c :: rest).length →
        fs.entry ⟨rooted, pre ++ (c :: rest).take k⟩ = some .dir) ∧
        (∀ x ∈ c :: rest, nameTooLong x = false)) := by
      intro P _ hne hand
      have := hand.1 0 (by simp)
      simp at this
      exact hne this
    rcases he : fs.entry ⟨rooted, pre⟩ with _ | n
    · simp only
      constructor
      · intro h; cases h
      · intro h
        exact absurd h (h0 True (fun _ => trivial) (by rw [he]; simp))
    · cases n with
      | file i =>
        simp only
        constructor
        · intro h; cases h
        · intro h
          exact absurd h (h0 True (fun _ => trivial) (by rw [he]; simp))
      | dir =>
        simp only
        by_cases hc : nameTooLong c = true
        · rw [if_pos hc]
          constructor
          · intro h; cases h
          · intro h
            have := h.2 c (by simp)
            rw [hc] at this; cases this
        · rw [if_neg hc, ih (pre ++ [c])]
          have hc2 : nameTooLong c = false := by simpa using hc
          constructor
          · rintro ⟨h1, h2⟩
            refine ⟨?_, ?_⟩
            · intro k hk
              cases k with
              | zero => simpa using he
              | succ j =>
                have := h1 j (by simpa using hk)
                simpa [List.append_assoc] using this
            · intro x hx
              rcases List.mem_cons.1 hx with rfl | hx
              · exact hc2
              · exact h2 x hx
          · rintro ⟨h1, h2⟩
            refine ⟨?_, fun x hx => h2 x (by simp [hx])⟩
            intro k hk
            have := h1 (k + 1) (by simpa using hk)
            simpa [List.append_assoc] using this

theorem walk_eq_ok_iff (fs : FS) (p : FPath) :
    fs.walk p = .ok () ↔
      p.namesOk = true ∧ ∀ q ∈ p.ancestors, fs.entry q = some .dir := by
  unfold FS.walk FPath.namesOk
  cases hpe : p.pathErr with
  | some e => simp
  | none =>
    simp only [walkFrom_ok_iff, List.nil_append, Option.isNone_none, Bool.true_and,
      List.all_eq_true, Bool.not_eq_true']
    constructor
    · rintro ⟨h1, h2⟩
      refine ⟨h2, ?_⟩
      intro q hq
      unfold FPath.ancestors at hq
      simp only [List.mem_map, List.mem_range] at hq
      obtain ⟨k, hk, rfl⟩ := hq
      exact h1 k hk
    · rintro ⟨h2, h1⟩
      refine ⟨?_, h2⟩
      intro k hk
      apply h1
      unfold FPath.ancestors
      simp only [List.mem_map, List.mem_range]
      exact ⟨k, hk, rfl⟩

theorem walkFrom_congr (fs fs2 : FS) (rooted : Bool) :
    ∀ (rest pre : List String),
      (∀ k, k < rest.length → fs2.entry ⟨rooted, pre ++ rest.take k⟩ =
        fs.entry ⟨rooted, pre ++ rest.take k⟩) →
      fs2.walkFrom rooted pre rest = fs.walkFrom rooted pre rest := by
  intro rest
  induction rest with
  | nil => intro pre _; simp [FS.walkFrom]
  | cons c rest ih =>
    intro pre h
    unfold FS.walkFrom
    have h0 := h 0 (by simp)
    simp only [List.take_zero, List.append_nil] at h0
    rw [h0, ih (pre ++ [c])]
    intro k hk
    have := h (k + 1) (by simpa using hk)
    simpa [List.append_assoc] using this

theorem walk_congr (fs fs2 : FS) (p : FPath)
    (h : ∀ q ∈ p.ancestors, fs2.entry q = fs.entry q) : fs2.walk p = fs.walk p := by
  unfold FS.walk
  cases p.pathErr with
  | some e => rfl
  | none =>
    simp only
    apply walkFrom_congr
    intro k hk
    apply h
    unfold FPath.ancestors
    simp only [List.mem_map, List.mem_range, List.nil_append]
    exact ⟨k, hk, rfl⟩

theorem stat_eq_ok_iff (fs : FS) (p : FPath) (n : Node) :
    fs.stat p = .ok n ↔ fs.walk p = .ok () ∧ fs.entry p = some n := by
  unfold FS.stat
  cases hw : fs.walk p with
  | error e => simp
  | ok u =>
    cases he : fs.entry p with
    | none => simp
    | some m => simp

theorem stat_of_wellFormed {fs : FS} (hwf : WellFormed fs) {p : FPath} {i : Nat}
    (h : fs.entry p = some (.file i)) : fs.stat p = .ok (.file i) :=
  (stat_eq_ok_iff fs p _).2 ⟨hwf p _ h (isDots_of_entry_file h), h⟩

theorem walk_setEntry_self {fs : FS} {q : FPath} (hq : q.isDots = false) (m : Node) :
    (fs.setEntry q m).walk q = fs.walk q :=
  walk_congr fs _ q (fun a ha => by
    rw [entry_setEntry hq, if_neg (ne_of_mem_ancestors ha)])

theorem walk_delEntry_self {fs : FS} {q : FPath} (hq : q.isDots = false) :
    (fs.delEntry q).walk q = fs.walk q :=
  walk_congr fs _ q (fun a ha => by
    rw [entry_delEntry hq, if_neg (ne_of_mem_ancestors ha)])

/-- Binding an unused name does not change the walk to a name that could be
reached. -/
theorem walk_setEntry_of_ok {fs : FS} {p q : FPath} (m : Node) (hq : fs.entry q = none)
    (hw : fs.walk p = .ok ()) : (fs.setEntry q m).walk p = .ok () := by
  rw [← hw]
  apply walk_congr
  intro a ha
  have hd := ((walk_eq_ok_iff fs p).1 hw).2 a ha
  rw [entry_setEntry (isDots_of_entry_none hq)]
  split
  · rename_i e; subst e; rw [hq] at hd; cases hd
  · rfl

/-- Unbinding a regular file does not change the walk to a name that could be
reached. -/
theorem walk_delEntry_of_ok {fs : FS} {p q : FPath} {j : Nat}
    (hq : fs.entry q = some (.file j)) (hw : fs.walk p = .ok ()) :
    (fs.delEntry q).walk p = .ok () := by
  rw [← hw]
  apply walk_congr
  intro a ha
  have hd := ((walk_eq_ok_iff fs p).1 hw).2 a ha
  rw [entry_delEntry (isDots_of_entry_file hq)]
  split
  · rename_i e; subst e; rw [hq] at hd; cases hd
  · rfl

theorem wellFormed_init : WellFormed FS.init := by
  intro p n h hd
  simp [FS.entry, FS.init, hd, lookupPath] at h

theorem wellFormed_setEntry {fs : FS} (hwf : WellFormed fs) {p : FPath} (n : Node)
    (hw : fs.walk p = .ok ()) (he : fs.entry p = none) : WellFormed (fs.setEntry p n) := by
  intro a m ha hda
  rw [entry_setEntry (isDots_of_entry_none he)] at ha
  by_cases hap : a = p
  · subst hap
    rw [walk_setEntry_self (isDots_of_entry_none he)]; exact hw
  · rw [if_neg hap] at ha
    exact walk_setEntry_of_ok n he (hwf a m ha hda)

theorem wellFormed_delEntry {fs : FS} (hwf : WellFormed fs) {p : FPath} {i : Nat}
    (he : fs.entry p = some (.file i)) : WellFormed (fs.delEntry p) := by
  intro a m ha hda
  rw [entry_delEntry (isDots_of_entry_file he)] at ha
  by_cases hap : a = p
  · rw [if_pos hap] at ha; cases ha
  · rw [if_neg hap] at ha
    exact walk_delEntry_of_ok he (hwf a m ha hda)

theorem wellFormed_congr {a b : FS} (h : ∀ q, b.entry q = a.entry q) (hwf : WellFormed a) :
    WellFormed b := by
  intro p n hp hd
  rw [h] at hp
  rw [walk_congr a b p (fun q _ => h q)]
  exact hwf p n hp hd

theorem DirsAdded.mono {Q R : FPath → Prop} (hQR : ∀ x, Q x → R x) {a b : FS}
    (h : DirsAdded Q a b) : DirsAdded R a b := by
  induction h with
  | refl => exact DirsAdded.refl _
  | step _ hw he hq ih => exact DirsAdded.step ih hw he (hQR _ hq)

theorem DirsAdded.trans {Q : FPath → Prop} {a b c : FS} (h1 : DirsAdded Q a b)
    (h2 : DirsAdded Q b c) : DirsAdded Q a c := by
  induction h2 with
  | refl => exact h1
  | step _ hw he hq ih => exact DirsAdded.step ih hw he hq

theorem DirsAdded.entry_some {Q : FPath → Prop} {a b : FS} (h : DirsAdded Q a b)
    {q : FPath} {n : Node} (hq : a.entry q = some n) : b.entry q = some n := by
  induction h with
  | refl => exact hq
  | step _ hw he _ ih =>
    rw [entry_setEntry (isDots_of_entry_none he)]
    split
    · rename_i e; subst e; rw [he] at ih; cases ih
    · exact ih

theorem DirsAdded.entry_file {Q : FPath → Prop} {a b : FS} (h : DirsAdded Q a b)
    {q : FPath} {i : Nat} (hq : b.entry q = some (.file i)) : a.entry q = some (.file i) := by
  induction h with
  | refl => exact hq
  | step _ hw he _ ih =>
    rw [entry_setEntry (isDots_of_entry_none he)] at hq
    split at hq
    · cases hq
    · exact ih hq

theorem DirsAdded.entry_cases {Q : FPath → Prop} {a b : FS} (h : DirsAdded Q a b)
    (x : FPath) :
    b.entry x = a.entry x ∨ (a.entry x = none ∧ b.entry x = some .dir ∧ Q x) := by
  induction h with
  | refl => exact Or.inl rfl
  | step _ hw he hq ih =>
    rw [entry_setEntry (isDots_of_entry_none he)]
    split
    · rename_i e
      subst e
      rcases ih with h1 | ⟨_, h2, _⟩
      · right; rw [← h1, he]; exact ⟨rfl, rfl, hq⟩
      · rw [he] at h2; cases h2
    · exact ih

theorem DirsAdded.data_eq {Q : FPath → Prop} {a b : FS} (h : DirsAdded Q a b) :
    b.data = a.data := by
  induction h with
  | refl => rfl
  | step _ hw he _ ih => exact ih

theorem DirsAdded.quota_eq {Q : FPath → Prop} {a b : FS} (h : DirsAdded Q a b) :
    b.quota = a.quota := by
  induction h with
  | refl => rfl
  | step _ hw he _ ih => exact ih

theorem DirsAdded.wellFormed {Q : FPath → Prop} {a b : FS} (h : DirsAdded Q a b)
    (hwf : WellFormed a) : WellFormed b := by
  induction h with
  | refl => exact hwf
  | step _ hw he _ ih => exact wellFormed_setEntry ih _ hw he

theorem DirsAdded.linkInv {Q : FPath → Prop} {s : storageLocalFile} {a b : FS}
    (h : DirsAdded Q a b) (hinv : LinkInv s a) : LinkInv s b :=
  fun q i hq hf => h.entry_some (hinv q i hq (h.entry_file hf))

theorem mkdir_dirsAdded (fs : FS) (p : FPath) :
    DirsAdded (fun x => x = p) fs (fs.mkdir p).1 := by
  unfold FS.mkdir
  cases hw : fs.walk p with
  | error e => exact DirsAdded.refl fs
  | ok u =>
    cases he : fs.entry p with
    | some n => exact DirsAdded.refl fs
    | none => exact DirsAdded.step (DirsAdded.refl fs) hw he rfl

theorem mkdirAll_dirsAdded (rooted : Bool) (l : List String) :
    ∀ fs : FS, DirsAdded (fun x => x.leads ⟨rooted, l.reverse⟩) fs
      (fs.mkdirAll rooted l).1 := by
  induction l with
  | nil =>
    intro fs
    unfold FS.mkdirAll
    cases fs.stat ⟨rooted, []⟩ with
    | ok n => exact DirsAdded.refl fs
    | error e =>
      exact (mkdir_dirsAdded fs _).mono (fun x hx => by
        subst hx; exact ⟨rfl, List.prefix_refl _⟩)
  | cons c parent ih =>
    intro fs
    unfold FS.mkdirAll
    cases fs.stat ⟨rooted, (c :: parent).reverse⟩ with
    | ok n => exact DirsAdded.refl fs
    | error e =>
      simp only
      have h1 : DirsAdded (fun x => x.leads ⟨rooted, (c :: parent).reverse⟩) fs
          (FS.mkdirAll fs rooted parent).1 :=
        (ih fs).mono (fun x hx => ⟨hx.1, by
          have h2 : parent.reverse <+: (c :: parent).reverse := by
            simp
          exact hx.2.trans h2⟩)
      rcases hm : FS.mkdirAll fs rooted parent with ⟨fs1, e1⟩
      rw [hm] at h1
      cases e1 with
      | some e => exact h1
      | none =>
        simp only
        have h2 : DirsAdded (fun x => x.leads ⟨rooted, (c :: parent).reverse⟩) fs1
            (fs1.mkdir ⟨rooted, (c :: parent).reverse⟩).1 :=
          (mkdir_dirsAdded fs1 _).mono (fun x hx => by
            subst hx; exact ⟨rfl, List.prefix_refl _⟩)
        rcases hk : fs1.mkdir ⟨rooted, (c :: parent).reverse⟩ with ⟨fs2, e2⟩
        rw [hk] at h2
        cases e2 with
        | none => exact h1.trans h2
        | some e =>
          simp only
          split <;> exact h1.trans h2

/-- The directories `mkdirIfNotExists` makes on the way to the parent of a path
are strict ancestors of the path. -/
theorem mkdirParent_dirsAdded (fs : FS) (a : FPath) :
    DirsAdded (fun x => x ∈ a.ancestors) fs
      (mkdirIfNotExists fs (filepath.Dir (some a))).1 := by
  have key : ∀ fs2, DirsAdded (fun x => x.leads ⟨a.rooted, a.comps.dropLast⟩) fs fs2 →
      DirsAdded (fun x => x ∈ a.ancestors) fs fs2 := by
    intro fs2 h
    induction h with
    | refl => exact DirsAdded.refl _
    | step _ hw he hq ih =>
      refine DirsAdded.step ih hw he ?_
      rename_i p
      have hnd := isDots_of_entry_none he
      have hne : a.comps ≠ [] := by
        intro e
        have h3 := hq.2
        simp only [e, List.dropLast_nil, List.prefix_nil] at h3
        simp [FPath.isDots, h3] at hnd
      refine mem_ancestors_intro (p := a) hq.1 ?_ ?_
      · have h3 := hq.2.length_le
        simp only [List.length_dropLast] at h3
        have : 0 < a.comps.length := List.length_pos.2 hne
        omega
      · exact hq.2.trans (List.dropLast_prefix _)
  apply key
  unfold mkdirIfNotExists filepath.Dir
  simp only
  split
  · have := mkdirAll_dirsAdded a.rooted a.comps.dropLast.reverse fs
    simpa [os.MkdirAll] using this
  · exact DirsAdded.refl fs

theorem mkdirIfNotExists_dirsAdded (fs : FS) (path : GoPath) :
    DirsAdded (fun _ => True) fs (mkdirIfNotExists fs path).1 := by
  unfold mkdirIfNotExists
  simp only
  split
  · cases path with
    | none => exact DirsAdded.refl fs
    | some p => exact (mkdirAll_dirsAdded _ _ fs).mono (fun _ _ => trivial)
  · exact DirsAdded.refl fs

theorem create_spec {fs fs2 : FS} {path : GoPath} {i : Nat}
    (h : os.Create fs path = .ok (fs2, i)) :
    ∃ p, path = some p ∧ fs.walk p = .ok () ∧
      (fs.entry p = some (.file i) ∨ fs.entry p = none) ∧
      (∀ q, fs2.entry q = if q = p then some (.file i) else fs.entry q) ∧
      fs2.data i = [] ∧ fs2.quota = fs.quota := by
  cases path with
  | none => simp [os.Create] at h
  | some p =>
    refine ⟨p, rfl, ?_⟩
    unfold os.Create at h
    cases hw : fs.walk p with
    | error e => simp [hw] at h
    | ok u =>
      simp only [hw] at h
      cases he : fs.entry p with
      | none =>
        simp only [he, Except.ok.injEq, Prod.mk.injEq] at h
        obtain ⟨h1, h2⟩ := h
        subst h2
        subst h1
        refine ⟨rfl, Or.inr rfl, ?_, ?_, rfl⟩
        · intro q
          exact entry_setEntry (isDots_of_entry_none he) q _
        · simp [FS.setData]
      | some n =>
        cases n with
        | dir => simp [he] at h
        | file j =>
          simp only [he, Except.ok.injEq, Prod.mk.injEq] at h
          obtain ⟨h1, h2⟩ := h
          subst h2
          subst h1
          refine ⟨rfl, Or.inl rfl, ?_, ?_, rfl⟩
          · intro q
            split
            · rename_i e; subst e; simpa using he
            · simp
          · simp [FS.setData]

theorem accepted_of_fits {quota : Option Nat} {source : Bytes}
    (h : fits quota source = true) : accepted quota source = source := by
  cases quota with
  | none => rfl
  | some q =>
    simp only [fits, decide_eq_true_eq] at h
    simp [accepted, List.take_of_length_le h]

/-- What `io.Copy` into an open file does: the file holds what the device
accepts of the source, no name changes, and the error is nil exactly when the
whole source fits. -/
theorem ioCopy_spec (fs : FS) (file : Nat) (source : Bytes) :
    (io.Copy fs file source).1.data file = accepted fs.quota source ∧
    (∀ q, (io.Copy fs file source).1.entry q = fs.entry q) ∧
    ((io.Copy fs file source).2 = none ↔ fits fs.quota source = true) := by
  unfold io.Copy
  cases hq : fs.quota with
  | none => simp [FS.setData, accepted, fits, FS.entry]
  | some q =>
    by_cases h : source.length ≤ q
    · simp [h, FS.setData, accepted, fits, FS.entry, List.take_of_length_le h]
    · simp [h, FS.setData, accepted, fits, FS.entry]

theorem isFileExists_true {fs : FS} {path : GoPath}
    (h : isFileExists fs path = .returned true) :
    ∃ p i, path = some p ∧ fs.stat p = .ok (.file i) := by
  unfold isFileExists at h
  cases path with
  | none => simp [os.Stat, os.IsNotExist] at h
  | some p =>
    simp only [os.Stat] at h
    cases hs : fs.stat p with
    | error e =>
      rw [hs] at h
      simp only at h
      split at h <;> simp at h
    | ok n =>
      cases n with
      | dir => simp [hs, Node.IsDir] at h
      | file i => exact ⟨p, i, rfl, hs⟩

theorem isFileExists_false {fs : FS} {p : FPath}
    (h : isFileExists fs (some p) = .returned false) :
    fs.stat p = .error .ENOENT ∨ fs.stat p = .ok .dir := by
  unfold isFileExists at h
  simp only [os.Stat] at h
  cases hs : fs.stat p with
  | error e =>
    rw [hs] at h
    cases e <;> simp [os.IsNotExist] at h ⊢
  | ok n =>
    cases n with
    | dir => exact Or.inr rfl
    | file i => simp [hs, Node.IsDir] at h

theorem isFileExists_of_stat_file {fs : FS} {p : FPath} {i : Nat}
    (h : fs.stat p = .ok (.file i)) : isFileExists fs (some p) = .returned true := by
  simp [isFileExists, os.Stat, h, Node.IsDir]

/-- The removal of a name that `isFileExists` has just checked: it cannot fail,
and unbinds the name when the check found a regular file. -/
theorem guarded_remove_spec {fs : FS} {path : GoPath} {found : Bool}
    (h : isFileExists fs path = .returned found) :
    ∃ fs1, (if found then os.Remove fs path else (fs, none)) = (fs1, none) ∧
      ((found = false ∧ fs1 = fs) ∨
       (found = true ∧ ∃ p i, path = some p ∧ fs.stat p = .ok (.file i) ∧
          fs1 = fs.delEntry p)) := by
  cases found with
  | false => exact ⟨fs, by simp, Or.inl ⟨rfl, rfl⟩⟩
  | true =>
    obtain ⟨p, i, rfl, hs⟩ := isFileExists_true h
    exact ⟨fs.delEntry p, by simp [os.Remove, hs], Or.inr ⟨rfl, p, i, rfl, hs, rfl⟩⟩

theorem link_spec (fs : FS) (oldname newname : GoPath) :
    (∃ e, os.Link fs oldname newname = (fs, some e)) ∨
    (∃ q i, newname = some q ∧ os.Stat fs oldname = .ok (.file i) ∧ fs.walk q = .ok () ∧
      fs.entry q = none ∧ os.Link fs oldname newname = (fs.setEntry q (.file i), none)) := by
  unfold os.Link
  cases hs : os.Stat fs oldname with
  | error e => exact Or.inl ⟨e, rfl⟩
  | ok n =>
    cases n with
    | dir => exact Or.inl ⟨_, rfl⟩
    | file i =>
      cases newname with
      | none => exact Or.inl ⟨_, rfl⟩
      | some q =>
        simp only
        cases hw : fs.walk q with
        | error e => exact Or.inl ⟨e, rfl⟩
        | ok u =>
          cases he : fs.entry q with
          | some m => exact Or.inl ⟨_, rfl⟩
          | none => exact Or.inr ⟨q, i, rfl, rfl, hw, he, rfl⟩

theorem stat_setEntry_of_none {fs : FS} {p q : FPath} {n m : Node}
    (hq : fs.entry q = none) (hs : fs.stat p = .ok n) : (fs.setEntry q m).stat p = .ok n := by
  rw [stat_eq_ok_iff] at hs ⊢
  obtain ⟨hw, he⟩ := hs
  refine ⟨walk_setEntry_of_ok m hq hw, ?_⟩
  rw [entry_setEntry (isDots_of_entry_none hq)]
  split
  · rename_i e; subst e; rw [hq] at he; cases he
  · exact he

theorem stat_setEntry_self {fs : FS} {q : FPath} (m : Node) (hd : q.isDots = false)
    (hw : fs.walk q = .ok ()) : (fs.setEntry q m).stat q = .ok m := by
  rw [stat_eq_ok_iff, walk_setEntry_self hd, entry_setEntry hd]
  exact ⟨hw, by simp⟩

theorem stat_delEntry_of_file {fs : FS} {p q : FPath} {n : Node} {j : Nat}
    (hq : fs.entry q = some (.file j)) (hpq : p ≠ q) (hs : fs.stat p = .ok n) :
    (fs.delEntry q).stat p = .ok n := by
  rw [stat_eq_ok_iff] at hs ⊢
  obtain ⟨hw, he⟩ := hs
  refine ⟨walk_delEntry_of_ok hq hw, ?_⟩
  rw [entry_delEntry (isDots_of_entry_file hq), if_neg hpq]; exact he

theorem stat_delEntry_self {fs : FS} {q : FPath} {j : Nat}
    (hs : fs.stat q = .ok (.file j)) : (fs.delEntry q).stat q = .error .ENOENT := by
  obtain ⟨hw, he⟩ := (stat_eq_ok_iff _ _ _).1 hs
  unfold FS.stat
  rw [walk_delEntry_self (isDots_of_entry_file he), hw]
  simp [entry_delEntry (isDots_of_entry_file he)]

theorem isFileExists_delEntry_self {fs : FS} {q : FPath} {j : Nat}
    (hs : fs.stat q = .ok (.file j)) :
    isFileExists (fs.delEntry q) (some q) = .returned false := by
  simp [isFileExists, os.Stat, stat_delEntry_self hs, os.IsNotExist]

/-- A successful `makeObjectPublic`: the private file exists, before and after,
and the public name is bound to its inode; no content changes. -/
theorem makeObjectPublic_ok {s : storageLocalFile} {fs fs2 : FS} {objectPath : String}
    (h : Local.makeObjectPublic s fs objectPath = (fs2, .returned none)) :
    ∃ fp q j, filepath.Join s.baseDir objectPath = some fp ∧
      filepath.Join s.publicBaseDir objectPath = some q ∧
      fs.entry fp = some (.file j) ∧ fs2.stat fp = .ok (.file j) ∧
      fs2.stat q = .ok (.file j) ∧ fs2.data = fs.data := by
  unfold Local.makeObjectPublic at h
  simp only at h
  have hd := mkdirIfNotExists_dirsAdded fs (filepath.Dir (filepath.Join s.publicBaseDir objectPath))
  unfold Local.checkAndCreateParentDirectory at h
  rcases hc : mkdirIfNotExists fs (filepath.Dir (filepath.Join s.publicBaseDir objectPath))
    with ⟨fs1, e1⟩
  rw [hc] at h hd
  simp only at hd
  cases e1 with
  | some err => simp at h
  | none =>
    simp only at h
    cases hx : isFileExists fs1 (filepath.Join s.publicBaseDir objectPath) with
    | panicked => simp [hx] at h
    | returned found =>
      rw [hx] at h
      simp only at h
      obtain ⟨fsr, hr, hcases⟩ := guarded_remove_spec hx
      rw [hr] at h
      simp only at h
      have hentry : ∀ a n, fsr.entry a = some n → fs1.entry a = some n := by
        intro a n ha
        rcases hcases with ⟨_, e⟩ | ⟨_, p, i, _, hs, e⟩
        · rw [e] at ha; exact ha
        · by_cases hap : a = p
          · subst hap
            rw [e, entry_delEntry (isDots_of_entry_file ((stat_eq_ok_iff _ _ _).1 hs).2),
              if_pos rfl] at ha
            cases ha
          · rw [e, entry_delEntry (isDots_of_entry_file ((stat_eq_ok_iff _ _ _).1 hs).2),
              if_neg hap] at ha
            exact ha
      have hdata : fsr.data = fs1.data := by
        rcases hcases with ⟨_, e⟩ | ⟨_, p, i, _, _, e⟩ <;> rw [e]
        rfl
      rcases link_spec fsr (filepath.Join s.baseDir objectPath)
          (filepath.Join s.publicBaseDir objectPath) with ⟨e, hl⟩ | ⟨q, j, hq, hst, hw, he, hl⟩
      · rw [hl] at h; simp at h
      · rw [hl] at h
        simp only [Prod.mk.injEq, and_true] at h
        subst h
        cases hfp : filepath.Join s.baseDir objectPath with
        | none => rw [hfp] at hst; simp [os.Stat] at hst
        | some fp =>
          rw [hfp] at hst
          simp only [os.Stat] at hst
          refine ⟨fp, q, j, rfl, hq, ?_, stat_setEntry_of_none he hst,
            stat_setEntry_self _ (isDots_of_entry_none he) hw, ?_⟩
          · exact hd.entry_file (hentry _ _ ((stat_eq_ok_iff _ _ _).1 hst).2)
          · show fsr.data = fs.data
            rw [hdata, hd.data_eq]

/-- A successful `Put`: the private name is bound to a regular file that holds
what the device accepted of the source; all of the source was accepted, or the
visibility is a public one. -/
theorem put_ok {s : storageLocalFile} {fs fs2 : FS} {objectPath : String} {source : Bytes}
    {visibility : ObjectVisibility}
    (h : Local.Put s fs objectPath source visibility = (fs2, .returned none)) :
    ∃ fp i, filepath.Join s.baseDir objectPath = some fp ∧
      fs2.stat fp = .ok (.file i) ∧ fs2.data i = accepted fs.quota source ∧
      (fits fs.quota source = true ∨ visibility = ObjectPublicRead ∨
        visibility = ObjectPublicReadWrite) := by
  unfold Local.Put Local.checkAndCreateParentDirectory at h
  simp only at h
  have hd := mkdirIfNotExists_dirsAdded fs (filepath.Dir (filepath.Join s.baseDir objectPath))
  rcases hc : mkdirIfNotExists fs (filepath.Dir (filepath.Join s.baseDir objectPath))
    with ⟨fs1, e1⟩
  rw [hc] at h hd
  simp only at hd
  cases e1 with
  | some err => simp at h
  | none =>
    simp only at h
    cases hcr : os.Create fs1 (filepath.Join s.baseDir objectPath) with
    | error e => rw [hcr] at h; simp at h
    | ok r =>
      obtain ⟨fsc, i⟩ := r
      rw [hcr] at h
      simp only at h
      obtain ⟨fp, hfp, hw, hold, hent, _, hquota⟩ := create_spec hcr
      obtain ⟨hdat, hsame, herr⟩ := ioCopy_spec fsc i source
      rcases hio : io.Copy fsc i source with ⟨fs3, err⟩
      rw [hio] at h hdat hsame herr
      simp only at h hdat hsame herr
      rw [hquota, hd.quota_eq] at hdat herr
      have hstat : fs3.stat fp = .ok (.file i) := by
        rw [stat_eq_ok_iff]
        constructor
        · rw [← hw]
          apply walk_congr
          intro a ha
          rw [hsame, hent a, if_neg (ne_of_mem_ancestors ha)]
        · rw [hsame, hent fp, if_pos rfl]
      split at h
      · rename_i hv
        obtain ⟨fp2, q, j, hfp2, _, hej, hsj, _, hdj⟩ := makeObjectPublic_ok h
        rw [hfp] at hfp2
        cases hfp2
        have hij : j = i := by
          have := ((stat_eq_ok_iff _ _ _).1 hstat).2
          rw [this] at hej
          cases hej; rfl
        subst hij
        exact ⟨fp, j, hfp, hsj, by rw [hdj]; exact hdat, Or.inr hv⟩
      · simp only [Prod.mk.injEq, Outcome.returned.injEq] at h
        obtain ⟨h1, h2⟩ := h
        subst h1
        exact ⟨fp, i, hfp, hstat, hdat, Or.inl (herr.1 h2)⟩

/-! ## Local backend -/

/-- What `Put` followed by `Read` gives, for every file system, object path,
byte sequence and visibility: when `Put` returns no error, `Read` succeeds and
the stream yields what the device accepted of the source; that is the source
itself when the device accepts all of it, and whenever the visibility is not a
public one. -/
theorem put_then_read (s : storageLocalFile) (fs : FS) (objectPath : String)
    (source : Bytes) (visibility : ObjectVisibility)
    (h : (Local.Put s fs objectPath source visibility).2 = .returned none) :
    Local.ReadAll s (Local.Put s fs objectPath source visibility).1 objectPath
      = .ok (accepted fs.quota source) ∧
    (fits fs.quota source = true ∨
      ¬ (visibility = ObjectPublicRead ∨ visibility = ObjectPublicReadWrite) →
      Local.ReadAll s (Local.Put s fs objectPath source visibility).1 objectPath
        = .ok source) := by
  have h2 : Local.Put s fs objectPath source visibility =
      ((Local.Put s fs objectPath source visibility).1, .returned none) := by
    rw [← h]
  obtain ⟨fp, i, hfp, hs, hd, hv⟩ := put_ok h2
  have hr : Local.ReadAll s (Local.Put s fs objectPath source visibility).1 objectPath
      = .ok (accepted fs.quota source) := by
    simp [Local.ReadAll, Local.Read, os.Open, os.Stat, hfp, hs, readAll, hd]
  refine ⟨hr, ?_⟩
  intro hcase
  rw [hr]
  have hf : fits fs.quota source = true := by
    rcases hcase with h3 | h3
    · exact h3
    · rcases hv with h4 | h4
      · exact h4
      · exact absurd h4 h3
  rw [accepted_of_fits hf]

/-- C1, the code at the failing input: on a device that accepts one more byte,
`Put` of three bytes as public-read returns no error, and `Read` then yields the
first byte only; the same `Put` as private returns the error of the write. -/
theorem C1_public_put_drops_write_error :
    (Local.Put Local.testStorage (FS.limited 1) "a.txt" [1, 2, 3] ObjectPublicRead).2
      = .returned none ∧
    Local.ReadAll Local.testStorage
      (Local.Put Local.testStorage (FS.limited 1) "a.txt" [1, 2, 3] ObjectPublicRead).1
      "a.txt" = .ok [1] ∧
    (Local.Put Local.testStorage (FS.limited 1) "a.txt" [1, 2, 3] ObjectPrivate).2
      = .returned (some (.sys .ENOSPC)) := by
  decide

/-- C2, the code at the failing input: with a regular file stored at `a`, the
object path `a/b` is absent from both trees and `os.Stat` fails on it with
ENOTDIR; `Delete` of `a/b` panics in `isFileExists`. -/
theorem C2_delete_panics_below_a_file :
    (Local.Put Local.testStorage FS.init "a" [1] ObjectPrivate).2 = .returned none ∧
    os.Stat (Local.Put Local.testStorage FS.init "a" [1] ObjectPrivate).1
      (filepath.Join Local.testStorage.baseDir "a/b") = .error .ENOTDIR ∧
    os.Stat (Local.Put Local.testStorage FS.init "a" [1] ObjectPrivate).1
      (filepath.Join Local.testStorage.publicBaseDir "a/b") = .error .ENOENT ∧
    (Local.Delete Local.testStorage
      (Local.Put Local.testStorage FS.init "a" [1] ObjectPrivate).1 ["a/b"]).2 = .panicked := by
  decide

/-- C3, the code at the failing input (the scenario of `Test_CopyFile`): after a
`Put` of the source object, `Copy` to a destination that does not exist fails with
ENOENT and the destination still does not exist; `Copy` onto an existing
destination fails with EBADF and leaves the content of the destination. -/
theorem C3_copy_never_copies :
    (Local.Put Local.testStorage FS.init "test-file-original.txt" [72, 105]
      ObjectPublicRead).2 = .returned none ∧
    (Local.Copy Local.testStorage
      (Local.Put Local.testStorage FS.init "test-file-original.txt" [72, 105]
        ObjectPublicRead).1
      "test-file-original.txt" "test-file-copied.txt").2 = .returned (some (.sys .ENOENT)) ∧
    Local.Exist Local.testStorage
      (Local.Copy Local.testStorage
        (Local.Put Local.testStorage FS.init "test-file-original.txt" [72, 105]
          ObjectPublicRead).1
        "test-file-original.txt" "test-file-copied.txt").1
      "test-file-copied.txt" = (false, none) ∧
    (Local.Copy Local.testStorage
      (Local.Put Local.testStorage
        (Local.Put Local.testStorage FS.init "test-file-original.txt" [72, 105]
          ObjectPublicRead).1
        "test-file-copied.txt" [7] ObjectPrivate).1
      "test-file-original.txt" "test-file-copied.txt").2 = .returned (some (.sys .EBADF)) ∧
    Local.ReadAll Local.testStorage
      (Local.Copy Local.testStorage
        (Local.Put Local.testStorage
          (Local.Put Local.testStorage FS.init "test-file-original.txt" [72, 105]
            ObjectPublicRead).1
          "test-file-copied.txt" [7] ObjectPrivate).1
        "test-file-original.txt" "test-file-copied.txt").1
      "test-file-copied.txt" = .ok [7] := by
  decide

/-- C5, the code at the failing input: an object is put as public-read and then
put again as private; the second `Put` returns no error, and afterwards `URL`
does not fail with the not-found error (it returns what the URL functions build)
and `GetVisibility` returns public-read. -/
theorem C5_private_put_leaves_public_link
    (buildURL : String → String → Except GoErr String) :
    (Local.Put Local.testStorage
      (Local.Put Local.testStorage FS.init "a.txt" [1] ObjectPublicRead).1
      "a.txt" [2] ObjectPrivate).2 = .returned none ∧
    Local.URL Local.testStorage buildURL
      (Local.Put Local.testStorage
        (Local.Put Local.testStorage FS.init "a.txt" [1] ObjectPublicRead).1
        "a.txt" [2] ObjectPrivate).1 "a.txt"
      = .returned (buildURL "http://localhost:8000/files" "a.txt") ∧
    Local.GetVisibility Local.testStorage
      (Local.Put Local.testStorage
        (Local.Put Local.testStorage FS.init "a.txt" [1] ObjectPublicRead).1
        "a.txt" [2] ObjectPrivate).1 "a.txt"
      = .returned (.ok ObjectPublicRead) := by
  refine ⟨by decide, ?_, by decide⟩
  have h : isFileExists
      (Local.Put Local.testStorage
        (Local.Put Local.testStorage FS.init "a.txt" [1] ObjectPublicRead).1
        "a.txt" [2] ObjectPrivate).1
      (filepath.Join Local.testStorage.publicBaseDir "a.txt") = .returned true := by
    decide
  have hne : ("a.txt" : String) ≠ "" := by decide
  unfold Local.URL
  rw [if_neg hne]
  simp only [h]
  rfl

/-- C4, counterexample: on an existing private object, `SetVisibility` with
public-read-write returns no error and `GetVisibility` then returns public-read,
not public-read-write.  And in a storage whose two roots are one directory, where
the public path of an object is its private path, `SetVisibility` with private
returns no error and removes the object: `GetVisibility` then fails. -/
theorem C4_public_read_write_not_returned :
    Local.Exist Local.testStorage
      (Local.Put Local.testStorage FS.init "a.txt" [1] ObjectPrivate).1 "a.txt" = (true, none) ∧
    (Local.SetVisibility Local.testStorage
      (Local.Put Local.testStorage FS.init "a.txt" [1] ObjectPrivate).1
      "a.txt" ObjectPublicReadWrite).2 = .returned none ∧
    Local.GetVisibility Local.testStorage
      (Local.SetVisibility Local.testStorage
        (Local.Put Local.testStorage FS.init "a.txt" [1] ObjectPrivate).1
        "a.txt" ObjectPublicReadWrite).1 "a.txt" = .returned (.ok ObjectPublicRead) ∧
    Local.GetVisibility Local.testStorage
      (Local.SetVisibility Local.testStorage
        (Local.Put Local.testStorage FS.init "a.txt" [1] ObjectPrivate).1
        "a.txt" ObjectPublicReadWrite).1 "a.txt" ≠ .returned (.ok ObjectPublicReadWrite) ∧
    Local.Exist ⟨"data", "data", ""⟩
      (Local.Put ⟨"data", "data", ""⟩ FS.init "a.txt" [1] ObjectPrivate).1 "a.txt"
      = (true, none) ∧
    (Local.SetVisibility ⟨"data", "data", ""⟩
      (Local.Put ⟨"data", "data", ""⟩ FS.init "a.txt" [1] ObjectPrivate).1
      "a.txt" ObjectPrivate).2 = .returned none ∧
    Local.GetVisibility ⟨"data", "data", ""⟩
      (Local.SetVisibility ⟨"data", "data", ""⟩
        (Local.Put ⟨"data", "data", ""⟩ FS.init "a.txt" [1] ObjectPrivate).1
        "a.txt" ObjectPrivate).1 "a.txt"
      = .returned (.error (.msg "err get visibility, object not found: a.txt")) := by
  decide

/-- C4, amended: for an existing object (a regular file at its private path)
whose public path is another path than its private path, and each of the three
canonical visibilities, if `SetVisibility` returns no error then `GetVisibility`
returns private after private and public-read after public-read and after
public-read-write, with no error, and the content read from the object is what
it was before. -/
theorem C4_visibility_round_trip (s : storageLocalFile) (fs : FS) (objectPath : String)
    (visibility : ObjectVisibility) (i : Nat)
    (hv : visibility = ObjectPrivate ∨ visibility = ObjectPublicRead ∨
      visibility = ObjectPublicReadWrite)
    (hobj : os.Stat fs (filepath.Join s.baseDir objectPath) = .ok (.file i))
    (hdist : filepath.Join s.publicBaseDir objectPath ≠ filepath.Join s.baseDir objectPath)
    (h : (Local.SetVisibility s fs objectPath visibility).2 = .returned none) :
    Local.GetVisibility s (Local.SetVisibility s fs objectPath visibility).1 objectPath =
      .returned (.ok (if visibility = ObjectPrivate then ObjectPrivate else ObjectPublicRead)) ∧
    Local.ReadAll s (Local.SetVisibility s fs objectPath visibility).1 objectPath =
      Local.ReadAll s fs objectPath ∧
    Local.ReadAll s fs objectPath = .ok (fs.data i) := by
  cases hfp : filepath.Join s.baseDir objectPath with
  | none => rw [hfp] at hobj; simp [os.Stat] at hobj
  | some fp =>
  rw [hfp] at hobj hdist
  simp only [os.Stat] at hobj
  have hread : ∀ fs2 : FS, fs2.stat fp = .ok (.file i) → fs2.data = fs.data →
      Local.ReadAll s fs2 objectPath = .ok (fs.data i) := by
    intro fs2 h1 h2
    simp [Local.ReadAll, Local.Read, os.Open, os.Stat, hfp, h1, readAll, h2]
  have hread0 := hread fs hobj rfl
  have hpriv : ∀ fs2 : FS, fs2.stat fp = .ok (.file i) →
      isFileExists fs2 (filepath.Join s.publicBaseDir objectPath) = .returned false →
      Local.GetVisibility s fs2 objectPath = .returned (.ok ObjectPrivate) := by
    intro fs2 h1 h2
    simp [Local.GetVisibility, h2, hfp, isFileExists_of_stat_file h1]
  have hpub : ∀ fs2 : FS,
      isFileExists fs2 (filepath.Join s.publicBaseDir objectPath) = .returned true →
      Local.GetVisibility s fs2 objectPath = .returned (.ok ObjectPublicRead) := by
    intro fs2 h2
    simp [Local.GetVisibility, h2]
  have hne1 : ObjectPublicRead ≠ ObjectPrivate := by decide
  have hne2 : ObjectPublicReadWrite ≠ ObjectPrivate := by decide
  by_cases hp : visibility = ObjectPrivate
  · subst hp
    rw [if_pos rfl]
    unfold Local.SetVisibility at h ⊢
    simp only [if_true] at h ⊢
    cases hx : isFileExists fs (filepath.Join s.publicBaseDir objectPath) with
    | panicked => rw [hx] at h; simp at h
    | returned found =>
      simp only
      cases found with
      | false =>
        simp only [Bool.false_eq_true, if_false]
        exact ⟨hpriv fs hobj hx, trivial, hread0⟩
      | true =>
        obtain ⟨q, j, hq, hs⟩ := isFileExists_true hx
        have hrm : os.Remove fs (filepath.Join s.publicBaseDir objectPath) =
            (fs.delEntry q, none) := by
          simp [hq, os.Remove, hs]
        simp only [hrm, if_true]
        have hfpq : fp ≠ q := by
          intro e; apply hdist; rw [hq, e]
        have hs2 : (fs.delEntry q).stat fp = .ok (.file i) :=
          stat_delEntry_of_file ((stat_eq_ok_iff _ _ _).1 hs).2 hfpq hobj
        refine ⟨hpriv _ hs2 ?_, ?_, hread0⟩
        · rw [hq]; exact isFileExists_delEntry_self hs
        · rw [hread _ hs2 rfl, hread0]
  · have hpubv : visibility = ObjectPublicRead ∨ visibility = ObjectPublicReadWrite := by
      rcases hv with h1 | h1 | h1
      · exact absurd h1 hp
      · exact Or.inl h1
      · exact Or.inr h1
    rw [if_neg hp]
    unfold Local.SetVisibility at h ⊢
    simp only [if_neg hp, if_pos hpubv] at h ⊢
    cases hx : isFileExists fs (filepath.Join s.publicBaseDir objectPath) with
    | panicked => rw [hx] at h; simp at h
    | returned found =>
      rw [hx] at h
      simp only at h ⊢
      cases found with
      | true =>
        simp only [Bool.not_true, Bool.false_eq_true, if_false]
        exact ⟨hpub fs hx, trivial, hread0⟩
      | false =>
        simp only [Bool.not_false, if_true] at h ⊢
        have h2 : Local.makeObjectPublic s fs objectPath =
            ((Local.makeObjectPublic s fs objectPath).1, .returned none) := by
          rw [← h]
        obtain ⟨fp2, q, j, hfp2, hq, hej, hsj, hsq, hdj⟩ := makeObjectPublic_ok h2
        rw [hfp] at hfp2
        cases hfp2
        have hij : j = i := by
          have := ((stat_eq_ok_iff _ _ _).1 hobj).2
          rw [this] at hej
          cases hej; rfl
        subst hij
        refine ⟨hpub _ ?_, ?_, hread0⟩
        · rw [hq]; exact isFileExists_of_stat_file hsq
        · rw [hread _ hsj hdj, hread0]

/-- C4, witness of the amended statement: a public-read object is made private. -/
theorem C4_visibility_round_trip_witness :
    os.Stat (Local.Put Local.testStorage FS.init "a.txt" [7, 8] ObjectPublicRead).1
      (filepath.Join Local.testStorage.baseDir "a.txt") = .ok (.file 0) ∧
    (Local.SetVisibility Local.testStorage
      (Local.Put Local.testStorage FS.init "a.txt" [7, 8] ObjectPublicRead).1
      "a.txt" ObjectPrivate).2 = .returned none ∧
    Local.GetVisibility Local.testStorage
      (Local.SetVisibility Local.testStorage
        (Local.Put Local.testStorage FS.init "a.txt" [7, 8] ObjectPublicRead).1
        "a.txt" ObjectPrivate).1 "a.txt" = .returned (.ok ObjectPrivate) ∧
    Local.ReadAll Local.testStorage
      (Local.SetVisibility Local.testStorage
        (Local.Put Local.testStorage FS.init "a.txt" [7, 8] ObjectPublicRead).1
        "a.txt" ObjectPrivate).1 "a.txt" = .ok [7, 8] :=
  have h := C4_visibility_round_trip Local.testStorage
    (Local.Put Local.testStorage FS.init "a.txt" [7, 8] ObjectPublicRead).1
    "a.txt" ObjectPrivate 0 (Or.inl rfl) (by decide) (by decide) (by decide)
  ⟨by decide, by decide, h.1, by decide⟩

/-! ## The hard-link invariant -/

theorem privAt_ne_pubAt {s : storageLocalFile} (hind : s.Independent) {x y : List String}
    (hx : ".." ∉ x) (hy : ".." ∉ y) : s.privAt x ≠ s.pubAt y := by
  intro e
  unfold storageLocalFile.privAt storageLocalFile.pubAt at e
  simp only [FPath.mk.injEq] at e
  obtain ⟨hr, hc⟩ := e
  have h1 : (cleanPath s.baseDir).comps <+: (cleanPath s.baseDir).comps ++ x :=
    List.prefix_append _ _
  have h2 : (cleanPath s.publicBaseDir).comps <+: (cleanPath s.baseDir).comps ++ x := by
    rw [hc]; exact List.prefix_append _ _
  rcases Nat.le_total (cleanPath s.baseDir).comps.length
      (cleanPath s.publicBaseDir).comps.length with hl | hl
  · apply hind.1
    refine ⟨hr, List.prefix_of_prefix_length_le h1 h2 hl, ?_⟩
    have e2 := congrArg (List.drop (cleanPath s.baseDir).comps.length) hc
    rw [List.drop_left, List.drop_append_of_le_length hl] at e2
    intro hmem
    apply hx
    rw [e2]
    exact List.mem_append_left _ hmem
  · apply hind.2
    refine ⟨hr.symm, List.prefix_of_prefix_length_le h2 h1 hl, ?_⟩
    have e2 := congrArg (List.drop (cleanPath s.publicBaseDir).comps.length) hc
    rw [List.drop_left, List.drop_append_of_le_length hl] at e2
    intro hmem
    apply hy
    rw [← e2]
    exact List.mem_append_left _ hmem

theorem pubAt_inj {s : storageLocalFile} {x y : List String} (h : s.pubAt x = s.pubAt y) :
    x = y := by
  unfold storageLocalFile.pubAt at h
  simp only [FPath.mk.injEq, true_and] at h
  exact List.append_cancel_left h

theorem privAt_inj {s : storageLocalFile} {x y : List String} (h : s.privAt x = s.privAt y) :
    x = y := by
  unfold storageLocalFile.privAt at h
  simp only [FPath.mk.injEq, true_and] at h
  exact List.append_cancel_left h

theorem relOf_some {s : storageLocalFile} {p : String} {r : List String}
    (hp : s.relOf p = some r) :
    filepath.Join s.baseDir p = some (s.privAt r) ∧
    filepath.Join s.publicBaseDir p = some (s.pubAt r) ∧ ".." ∉ r := by
  unfold storageLocalFile.relOf at hp
  cases ha : filepath.Join s.baseDir p with
  | none => simp [ha] at hp
  | some a =>
    cases hb : filepath.Join s.publicBaseDir p with
    | none => simp [ha, hb] at hp
    | some b =>
      simp only [ha, hb] at hp
      split at hp
      · rename_i h
        cases hp
        exact ⟨by rw [← h.1], by rw [← h.2.1], h.2.2⟩
      · cases hp

theorem join_priv {s : storageLocalFile} {p : String} {r : List String}
    (hp : s.relOf p = some r) : filepath.Join s.baseDir p = some (s.privAt r) :=
  (relOf_some hp).1

theorem join_pub {s : storageLocalFile} {p : String} {r : List String}
    (hp : s.relOf p = some r) : filepath.Join s.publicBaseDir p = some (s.pubAt r) :=
  (relOf_some hp).2.1

theorem relOf_nodots {s : storageLocalFile} {p : String} {r : List String}
    (hp : s.relOf p = some r) : ".." ∉ r :=
  (relOf_some hp).2.2

/-- An object path whose `..` elements never climb above the directory it starts
in resolves inside two non-empty roots. -/
theorem relOf_of_insideRoot (s : storageLocalFile) (p : String) (h1 : s.baseDir ≠ "")
    (h2 : s.publicBaseDir ≠ "") (hp : insideRoot p = true) :
    s.relOf p = some (relComps p) := by
  unfold storageLocalFile.relOf
  rw [join_inside s.baseDir p h1 hp, join_inside s.publicBaseDir p h2 hp]
  have h := relComps_no_dotdot p hp
  simp [storageLocalFile.privAt, storageLocalFile.pubAt, h]

theorem inv_congr {s : storageLocalFile} {a b : FS} (h : ∀ q, b.entry q = a.entry q)
    (hinv : Inv s a) : Inv s b := by
  refine ⟨wellFormed_congr h hinv.1, ?_⟩
  intro q i hd hq
  rw [h] at hq ⊢
  exact hinv.2 q i hd hq

theorem inv_dirsAdded {Q : FPath → Prop} {s : storageLocalFile} {a b : FS}
    (h : DirsAdded Q a b) (hinv : Inv s a) : Inv s b :=
  ⟨h.wellFormed hinv.1, h.linkInv hinv.2⟩

theorem inv_of_treesEmpty {s : storageLocalFile} {fs : FS} (hwf : WellFormed fs)
    (he : TreesEmpty s fs) : Inv s fs :=
  ⟨hwf, fun q i hd hq => absurd hq (he q i hd).1⟩

theorem inv_setEntry_priv {s : storageLocalFile} (hind : s.Independent) {fs : FS}
    (hinv : Inv s fs) {r : List String} (hr : ".." ∉ r) (i : Nat)
    (hw : fs.walk (s.privAt r) = .ok ()) (he : fs.entry (s.privAt r) = none) :
    Inv s (fs.setEntry (s.privAt r) (.file i)) := by
  have hdots := isDots_of_entry_none he
  refine ⟨wellFormed_setEntry hinv.1 _ hw he, ?_⟩
  intro q j hd hq
  rw [entry_setEntry hdots, if_neg (privAt_ne_pubAt hind hr hd).symm] at hq
  have h1 := hinv.2 q j hd hq
  rw [entry_setEntry hdots]
  split
  · rename_i e; rw [e, he] at h1; cases h1
  · exact h1

theorem inv_setEntry_pub {s : storageLocalFile} (hind : s.Independent) {fs : FS}
    (hinv : Inv s fs) {r : List String} (hr : ".." ∉ r) {j : Nat}
    (hw : fs.walk (s.pubAt r) = .ok ()) (he : fs.entry (s.pubAt r) = none)
    (hpriv : fs.entry (s.privAt r) = some (.file j)) :
    Inv s (fs.setEntry (s.pubAt r) (.file j)) := by
  have hdots := isDots_of_entry_none he
  refine ⟨wellFormed_setEntry hinv.1 _ hw he, ?_⟩
  intro q k hd hq
  rw [entry_setEntry hdots] at hq
  rw [entry_setEntry hdots, if_neg (privAt_ne_pubAt hind hd hr)]
  split at hq
  · rename_i e
    have := pubAt_inj e
    subst this
    cases hq
    exact hpriv
  · exact hinv.2 q k hd hq

theorem inv_delEntry_pub {s : storageLocalFile} (hind : s.Independent) {fs : FS}
    (hinv : Inv s fs) {r : List String} (hr : ".." ∉ r) {j : Nat}
    (he : fs.entry (s.pubAt r) = some (.file j)) : Inv s (fs.delEntry (s.pubAt r)) := by
  have hdots := isDots_of_entry_file he
  refine ⟨wellFormed_delEntry hinv.1 he, ?_⟩
  intro q k hd hq
  rw [entry_delEntry hdots] at hq
  rw [entry_delEntry hdots, if_neg (privAt_ne_pubAt hind hd hr)]
  split at hq
  · cases hq
  · exact hinv.2 q k hd hq

theorem inv_delEntry_priv {s : storageLocalFile} (hind : s.Independent) {fs : FS}
    (hinv : Inv s fs) {r : List String} (hr : ".." ∉ r) {j : Nat}
    (he : fs.entry (s.privAt r) = some (.file j))
    (hpub : ∀ k, fs.entry (s.pubAt r) ≠ some (.file k)) :
    Inv s (fs.delEntry (s.privAt r)) := by
  have hdots := isDots_of_entry_file he
  refine ⟨wellFormed_delEntry hinv.1 he, ?_⟩
  intro q k hd hq
  rw [entry_delEntry hdots, if_neg (privAt_ne_pubAt hind hr hd).symm] at hq
  rw [entry_delEntry hdots]
  split
  · rename_i e
    have := privAt_inj e
    subst this
    exact absurd hq (hpub k)
  · exact hinv.2 q k hd hq

/-- The guarded removal of a name, in either tree: afterwards the name is no
regular file, and the file system is the one before or the one before without
the name. -/
theorem guarded_remove_not_file {fs : FS} (hwf : WellFormed fs) {a : FPath} {found : Bool}
    (hx : isFileExists fs (some a) = .returned found) :
    ∃ fs1, (if found then os.Remove fs (some a) else (fs, none)) = (fs1, none) ∧
      (∀ k, fs1.entry a ≠ some (.file k)) ∧
      (fs1 = fs ∨ ∃ j, fs.entry a = some (.file j) ∧ fs1 = fs.delEntry a) := by
  obtain ⟨fs1, hr, hcases⟩ := guarded_remove_spec hx
  refine ⟨fs1, hr, ?_, ?_⟩
  · intro k hk
    rcases hcases with ⟨hf, e⟩ | ⟨_, p, i, hp, hs, e⟩
    · subst e; subst hf
      have hs := stat_of_wellFormed hwf hk
      rcases isFileExists_false hx with h | h <;> rw [hs] at h <;> cases h
    · cases hp
      have he := ((stat_eq_ok_iff _ _ _).1 hs).2
      rw [e, entry_delEntry (isDots_of_entry_file he), if_pos rfl] at hk
      cases hk
  · rcases hcases with ⟨_, e⟩ | ⟨_, p, i, hp, hs, e⟩
    · exact Or.inl e
    · cases hp
      exact Or.inr ⟨i, ((stat_eq_ok_iff _ _ _).1 hs).2, e⟩

theorem inv_makeObjectPublic {s : storageLocalFile} (hind : s.Independent) {fs : FS}
    (hinv : Inv s fs) {p : String} {r : List String} (hp : s.relOf p = some r) :
    Inv s (Local.makeObjectPublic s fs p).1 := by
  have hrd := relOf_nodots hp
  unfold Local.makeObjectPublic Local.checkAndCreateParentDirectory
  simp only [join_pub hp, join_priv hp]
  have hd := mkdirIfNotExists_dirsAdded fs (filepath.Dir (some (s.pubAt (r))))
  rcases hc : mkdirIfNotExists fs (filepath.Dir (some (s.pubAt (r)))) with ⟨fs1, e1⟩
  rw [hc] at hd
  have hinv1 : Inv s fs1 := inv_dirsAdded hd hinv
  cases e1 with
  | some err => exact hinv1
  | none =>
    simp only
    cases hx : isFileExists fs1 (some (s.pubAt (r))) with
    | panicked => exact hinv1
    | returned found =>
      simp only
      obtain ⟨fsr, hr, _, hcases⟩ := guarded_remove_not_file hinv1.1 hx
      rw [hr]
      simp only
      have hinvr : Inv s fsr := by
        rcases hcases with e | ⟨j, hj, e⟩
        · rw [e]; exact hinv1
        · rw [e]; exact inv_delEntry_pub hind hinv1 hrd hj
      rcases link_spec fsr (some (s.privAt (r))) (some (s.pubAt (r)))
        with ⟨e, hl⟩ | ⟨q, j, hq, hst, hw, he, hl⟩
      · rw [hl]; exact hinvr
      · rw [hl]
        cases hq
        simp only [os.Stat] at hst
        exact inv_setEntry_pub hind hinvr hrd hw he ((stat_eq_ok_iff _ _ _).1 hst).2

theorem inv_Put {s : storageLocalFile} (hind : s.Independent) {fs : FS}
    (hinv : Inv s fs) {p : String} {r : List String} (hp : s.relOf p = some r) (c : Bytes)
    (v : ObjectVisibility) : Inv s (Local.Put s fs p c v).1 := by
  have hrd := relOf_nodots hp
  unfold Local.Put Local.checkAndCreateParentDirectory
  simp only [join_priv hp]
  have hd := mkdirIfNotExists_dirsAdded fs (filepath.Dir (some (s.privAt (r))))
  rcases hc : mkdirIfNotExists fs (filepath.Dir (some (s.privAt (r)))) with ⟨fs1, e1⟩
  rw [hc] at hd
  have hinv1 : Inv s fs1 := inv_dirsAdded hd hinv
  cases e1 with
  | some err => exact hinv1
  | none =>
    simp only
    cases hcr : os.Create fs1 (some (s.privAt (r))) with
    | error e => exact hinv1
    | ok r =>
      obtain ⟨fsc, i⟩ := r
      simp only
      obtain ⟨fp, hfp, hw, hold, hent, _⟩ := create_spec hcr
      cases hfp
      have hcopy := (ioCopy_spec fsc i c).2.1
      rcases hio : io.Copy fsc i c with ⟨fs3, err⟩
      rw [hio] at hcopy
      simp only at hcopy ⊢
      have hinv3 : Inv s fs3 := by
        rcases hold with ho | ho
        · apply inv_congr (a := fs1) _ hinv1
          intro q
          rw [hcopy, hent q]
          split
          · rename_i e; rw [e, ho]
          · rfl
        · apply inv_congr (a := fs1.setEntry (s.privAt (r)) (.file i)) _
            (inv_setEntry_priv hind hinv1 hrd i hw ho)
          intro q
          rw [hcopy, hent q, entry_setEntry (isDots_of_entry_none ho)]
      split
      · exact inv_makeObjectPublic hind hinv3 hp
      · exact hinv3

theorem inv_Delete {s : storageLocalFile} (hind : s.Independent) (ps : List String) :
    ∀ {fs : FS}, Inv s fs → (ps.all fun p => (s.relOf p).isSome) = true →
      Inv s (Local.Delete s fs ps).1 := by
  induction ps with
  | nil => intro fs hinv _; exact hinv
  | cons p rest ih =>
    intro fs hinv hall
    simp only [List.all_cons, Bool.and_eq_true] at hall
    obtain ⟨hp0, hrest⟩ := hall
    obtain ⟨r, hp⟩ := Option.isSome_iff_exists.1 hp0
    have hrd := relOf_nodots hp
    unfold Local.Delete
    simp only [join_pub hp, join_priv hp]
    cases hx : isFileExists fs (some (s.pubAt (r))) with
    | panicked => exact hinv
    | returned pubFound =>
      simp only
      obtain ⟨fs1, hr, hnf, hcases⟩ := guarded_remove_not_file hinv.1 hx
      rw [hr]
      simp only
      have hinv1 : Inv s fs1 := by
        rcases hcases with e | ⟨j, hj, e⟩
        · rw [e]; exact hinv
        · rw [e]; exact inv_delEntry_pub hind hinv hrd hj
      cases hy : isFileExists fs1 (some (s.privAt (r))) with
      | panicked => exact hinv1
      | returned privFound =>
        simp only
        obtain ⟨fs2, hr2, _, hcases2⟩ := guarded_remove_not_file hinv1.1 hy
        rw [hr2]
        simp only
        have hinv2 : Inv s fs2 := by
          rcases hcases2 with e | ⟨j, hj, e⟩
          · rw [e]; exact hinv1
          · rw [e]; exact inv_delEntry_priv hind hinv1 hrd hj hnf
        exact ih hinv2 hrest

/-- What `Copy` does to the file system, for all inputs: it makes directories at
most; no file is created and no content is written. -/
theorem copy_dirsAdded (s : storageLocalFile) (fs : FS) (src dst : String) :
    DirsAdded (fun _ => True) fs (Local.Copy s fs src dst).1 := by
  unfold Local.Copy Local.checkAndCreateParentDirectory
  simp only
  have hd := mkdirIfNotExists_dirsAdded fs (filepath.Dir (filepath.Join s.baseDir src))
  rcases hc : mkdirIfNotExists fs (filepath.Dir (filepath.Join s.baseDir src)) with ⟨fs1, e1⟩
  rw [hc] at hd
  cases e1 with
  | some err => exact hd
  | none =>
    simp only
    cases os.Open fs1 (filepath.Join s.baseDir src) with
    | error e => exact hd
    | ok h =>
      simp only
      have hd2 := mkdirIfNotExists_dirsAdded fs1 (filepath.Dir (filepath.Join s.baseDir dst))
      rcases hc2 : mkdirIfNotExists fs1 (filepath.Dir (filepath.Join s.baseDir dst))
        with ⟨fs2, e2⟩
      rw [hc2] at hd2
      cases e2 with
      | some err => exact hd.trans hd2
      | none =>
        simp only
        cases os.Open fs2 (filepath.Join s.baseDir dst) with
        | error e => exact hd.trans hd2
        | ok h2 => exact hd.trans hd2

theorem inv_Copy {s : storageLocalFile} {fs : FS} (hinv : Inv s fs) (src dst : String) :
    Inv s (Local.Copy s fs src dst).1 :=
  inv_dirsAdded (copy_dirsAdded s fs src dst) hinv

theorem inv_SetVisibility {s : storageLocalFile} (hind : s.Independent) {fs : FS}
    (hinv : Inv s fs) {p : String} {r : List String} (hp : s.relOf p = some r) (v : ObjectVisibility) :
    Inv s (Local.SetVisibility s fs p v).1 := by
  have hrd := relOf_nodots hp
  unfold Local.SetVisibility
  simp only [join_pub hp]
  split
  · cases hx : isFileExists fs (some (s.pubAt (r))) with
    | panicked => exact hinv
    | returned found =>
      simp only
      cases found with
      | false => exact hinv
      | true =>
        obtain ⟨q, j, hq, hs⟩ := isFileExists_true hx
        cases hq
        have hrm : os.Remove fs (some (s.pubAt (r))) =
            (fs.delEntry (s.pubAt (r)), none) := by
          simp [os.Remove, hs]
        simp only [hrm, if_true]
        exact inv_delEntry_pub hind hinv hrd ((stat_eq_ok_iff _ _ _).1 hs).2
  · split
    · cases hx : isFileExists fs (some (s.pubAt (r))) with
      | panicked => exact hinv
      | returned found =>
        simp only
        cases found with
        | true => exact hinv
        | false =>
          simp only [Bool.not_false, if_true]
          exact inv_makeObjectPublic hind hinv hp
    · exact hinv

theorem inv_run {s : storageLocalFile} (hind : s.Independent) (ops : List Local.Op) :
    ∀ {fs : FS}, Inv s fs → (∀ op ∈ ops, op.inside s = true) →
      Inv s (Local.run s fs ops) := by
  induction ops with
  | nil => intro fs hinv _; exact hinv
  | cons op rest ih =>
    intro fs hinv hall
    have hop := hall op (by simp)
    have hrest : ∀ o ∈ rest, o.inside s = true := fun o ho => hall o (by simp [ho])
    unfold Local.run
    simp only [List.foldl_cons]
    apply ih _ hrest
    cases op with
    | Put p c v =>
      simp only [Local.Op.inside, Local.Op.paths, List.all_cons, List.all_nil,
        Bool.and_true] at hop
      obtain ⟨r, hp⟩ := Option.isSome_iff_exists.1 hop
      exact inv_Put hind hinv hp c v
    | Delete ps => exact inv_Delete hind ps hinv hop
    | Copy src dst => exact inv_Copy hinv src dst
    | SetVisibility p v =>
      simp only [Local.Op.inside, Local.Op.paths, List.all_cons, List.all_nil,
        Bool.and_true] at hop
      obtain ⟨r, hp⟩ := Option.isSome_iff_exists.1 hop
      exact inv_SetVisibility hind hinv hp v

theorem treesEmpty_init (s : storageLocalFile) : TreesEmpty s FS.init := by
  have h : ∀ p i, FS.init.entry p ≠ some (.file i) := by
    intro p i hp
    unfold FS.entry FS.init at hp
    simp only [lookupPath] at hp
    split at hp <;> cases hp
  intro q i _
  exact ⟨h _ i, h _ i⟩

/-- A successful `Put` on an object with a public entry leaves a public entry. -/
theorem put_ok_public_entry {s : storageLocalFile} (hind : s.Independent) {fs fs2 : FS}
    {p : String} {r : List String} (hp : s.relOf p = some r) {c : Bytes} {v : ObjectVisibility}
    (h : Local.Put s fs p c v = (fs2, .returned none)) {i : Nat}
    (hpub : fs.entry (s.pubAt (r)) = some (.file i)) :
    ∃ j, fs2.entry (s.pubAt (r)) = some (.file j) := by
  have hrd := relOf_nodots hp
  unfold Local.Put Local.checkAndCreateParentDirectory at h
  simp only [join_priv hp] at h
  have hd := mkdirIfNotExists_dirsAdded fs (filepath.Dir (some (s.privAt (r))))
  rcases hc : mkdirIfNotExists fs (filepath.Dir (some (s.privAt (r)))) with ⟨fs1, e1⟩
  rw [hc] at hd h
  cases e1 with
  | some err => simp at h
  | none =>
    simp only at h
    cases hcr : os.Create fs1 (some (s.privAt (r))) with
    | error e => rw [hcr] at h; simp at h
    | ok r =>
      obtain ⟨fsc, k⟩ := r
      rw [hcr] at h
      simp only at h
      obtain ⟨fp, hfp, _, _, hent, _⟩ := create_spec hcr
      cases hfp
      have hcopy := (ioCopy_spec fsc k c).2.1
      rcases hio : io.Copy fsc k c with ⟨fs3, err⟩
      rw [hio] at hcopy h
      simp only at hcopy h
      split at h
      · obtain ⟨_, q, j, _, hq, _, _, hsq, _⟩ := makeObjectPublic_ok h
        rw [join_pub hp] at hq
        cases hq
        exact ⟨j, ((stat_eq_ok_iff _ _ _).1 hsq).2⟩
      · simp only [Prod.mk.injEq] at h
        obtain ⟨h1, _⟩ := h
        subst h1
        refine ⟨i, ?_⟩
        rw [hcopy, hent, if_neg (privAt_ne_pubAt hind hrd hrd).symm]
        exact hd.entry_some hpub

/-- C7, counterexample.  The public root `data/public` lies in the private tree
at `data`, and both trees hold no file.  The call `Put("public/y", [1], private)`,
whose object path resolves inside both roots, leaves the regular file
`data/public/y`: an entry of the public tree at the relative path `y`, while the
private tree has no `y`, and `GetVisibility("y")` reports public-read.  With the
roots of the tests on a device that accepts one more byte, a public `Put` of
three bytes on an object with a public entry returns nil and the public entry
holds no byte of the new content. -/
theorem C7_nested_roots_break_the_link :
    ¬ Local.nestedStorage.Independent ∧
    WellFormed FS.init ∧ TreesEmpty Local.nestedStorage FS.init ∧
    (∀ op ∈ [Local.Op.Put "public/y" [1] ObjectPrivate],
      op.inside Local.nestedStorage = true) ∧
    (Local.run Local.nestedStorage FS.init [.Put "public/y" [1] ObjectPrivate]).entry
      (Local.nestedStorage.pubAt ["y"]) = some (.file 0) ∧
    (Local.run Local.nestedStorage FS.init [.Put "public/y" [1] ObjectPrivate]).entry
      (Local.nestedStorage.privAt ["y"]) = none ∧
    Local.GetVisibility Local.nestedStorage
      (Local.run Local.nestedStorage FS.init [.Put "public/y" [1] ObjectPrivate]) "y" =
        .returned (.ok ObjectPublicRead) ∧
    (Local.run Local.testStorage (FS.limited 1) [.Put "a.txt" [1] ObjectPublicRead]).entry
      (Local.testStorage.pubAt ["a.txt"]) = some (.file 0) ∧
    (Local.Put Local.testStorage
      (Local.run Local.testStorage (FS.limited 1) [.Put "a.txt" [1] ObjectPublicRead])
      "a.txt" [7, 8, 9] ObjectPublicRead).2 = .returned none ∧
    (Local.Put Local.testStorage
      (Local.run Local.testStorage (FS.limited 1) [.Put "a.txt" [1] ObjectPublicRead])
      "a.txt" [7, 8, 9] ObjectPublicRead).1.entry (Local.testStorage.pubAt ["a.txt"]) =
        some (.file 0) ∧
    (Local.Put Local.testStorage
      (Local.run Local.testStorage (FS.limited 1) [.Put "a.txt" [1] ObjectPublicRead])
      "a.txt" [7, 8, 9] ObjectPublicRead).1.data 0 = [] :=
  ⟨by decide, wellFormed_init, treesEmpty_init _, by decide, by decide, by decide, by decide,
    by decide, by decide, by decide, by decide⟩

/-- C7, amended.  The hard-link publishing invariant of the local backend.  Let
neither root lie in the tree of the other, and start from a well-formed file
system whose private and public trees hold no regular file.  After any finite
sequence of `Put`, `Delete`, `Copy` and `SetVisibility` calls whose object paths
resolve inside the roots, whatever each call returns:
every regular file of the public tree is bound to the inode of the regular file at
the same relative path of the private tree;
`GetVisibility` of an object reports a public visibility exactly when the public
entry of the object is such a link;
and when an object has a public entry, a `Put` that returns no error, with any
visibility, leaves a public entry bound to the inode of the private file, whose
content is what the device accepted of the new content: all of it when the write
did not fail, which a `Put` with a public visibility does not report. -/
theorem C7_hard_link_invariant (s : storageLocalFile) (fs0 : FS) (ops : List Local.Op)
    (hind : s.Independent) (hwf : WellFormed fs0) (hempty : TreesEmpty s fs0)
    (hops : ∀ op ∈ ops, op.inside s = true) :
    (∀ q i, ".." ∉ q → (Local.run s fs0 ops).entry (s.pubAt q) = some (.file i) →
      (Local.run s fs0 ops).entry (s.privAt q) = some (.file i)) ∧
    (∀ p r, s.relOf p = some r →
      ((∃ v, Local.GetVisibility s (Local.run s fs0 ops) p = .returned (.ok v) ∧
          (v = ObjectPublicRead ∨ v = ObjectPublicReadWrite)) ↔
        ∃ i, (Local.run s fs0 ops).entry (s.pubAt r) = some (.file i) ∧
          (Local.run s fs0 ops).entry (s.privAt r) = some (.file i))) ∧
    (∀ p r c v i, s.relOf p = some r →
      (Local.run s fs0 ops).entry (s.pubAt r) = some (.file i) →
      (Local.Put s (Local.run s fs0 ops) p c v).2 = .returned none →
      ∃ j, (Local.Put s (Local.run s fs0 ops) p c v).1.entry (s.pubAt r) = some (.file j) ∧
        (Local.Put s (Local.run s fs0 ops) p c v).1.entry (s.privAt r) = some (.file j) ∧
        (Local.Put s (Local.run s fs0 ops) p c v).1.data j =
          accepted (Local.run s fs0 ops).quota c ∧
        (fits (Local.run s fs0 ops).quota c = true →
          (Local.Put s (Local.run s fs0 ops) p c v).1.data j = c) ∧
        (fits (Local.run s fs0 ops).quota c = true ∨ v = ObjectPublicRead ∨
          v = ObjectPublicReadWrite)) := by
  have hinv : Inv s (Local.run s fs0 ops) :=
    inv_run hind ops (inv_of_treesEmpty hwf hempty) hops
  generalize Local.run s fs0 ops = fs at hinv
  refine ⟨hinv.2, ?_, ?_⟩
  · intro p r hp
    have hrd := relOf_nodots hp
    constructor
    · rintro ⟨v, hg, hv⟩
      unfold Local.GetVisibility at hg
      simp only [join_pub hp, join_priv hp] at hg
      cases hx : isFileExists fs (some (s.pubAt (r))) with
      | panicked => rw [hx] at hg; simp at hg
      | returned found =>
        cases found with
        | true =>
          obtain ⟨q, i, hq, hs⟩ := isFileExists_true hx
          cases hq
          have he := ((stat_eq_ok_iff _ _ _).1 hs).2
          exact ⟨i, he, hinv.2 _ _ hrd he⟩
        | false =>
          rw [hx] at hg
          simp only [Bool.false_eq_true, if_false] at hg
          cases hy : isFileExists fs (some (s.privAt (r))) with
          | panicked => rw [hy] at hg; simp at hg
          | returned f2 =>
            rw [hy] at hg
            simp only at hg
            split at hg
            · simp only [Outcome.returned.injEq, Except.ok.injEq] at hg
              subst hg
              rcases hv with h | h
              · exact absurd h (by decide)
              · exact absurd h (by decide)
            · simp at hg
    · rintro ⟨i, he, _⟩
      refine ⟨ObjectPublicRead, ?_, Or.inl rfl⟩
      have hx := isFileExists_of_stat_file (stat_of_wellFormed hinv.1 he)
      simp [Local.GetVisibility, join_pub hp, hx]
  · intro p r c v i hp hpub hput
    have hrd := relOf_nodots hp
    have h2 : Local.Put s fs p c v = ((Local.Put s fs p c v).1, .returned none) := by
      rw [← hput]
    obtain ⟨fp, k, hfp, hs, hd, hfit⟩ := put_ok h2
    rw [join_priv hp] at hfp
    cases hfp
    obtain ⟨j, hj⟩ := put_ok_public_entry hind hp h2 hpub
    have hinv2 : Inv s (Local.Put s fs p c v).1 := inv_Put hind hinv hp c v
    have hpriv := hinv2.2 _ _ hrd hj
    have hk := ((stat_eq_ok_iff _ _ _).1 hs).2
    rw [hk] at hpriv
    cases hpriv
    exact ⟨k, hj, hk, hd, fun hf => by rw [hd, accepted_of_fits hf], hfit⟩

/-- C7, witness of the amended statement: the storage of the tests, the file
system with no object, and a sequence of calls; afterwards the public tree holds
one regular file, the link of `b/c.txt`. -/
theorem C7_hard_link_invariant_witness :
    Local.testStorage.Independent ∧
    (∀ op ∈ Local.sampleOps, op.inside Local.testStorage = true) ∧
    (Local.run Local.testStorage FS.init Local.sampleOps).entry
      (Local.testStorage.pubAt ["b", "c.txt"]) = some (.file 1) ∧
    (∀ q i, ".." ∉ q → (Local.run Local.testStorage FS.init Local.sampleOps).entry
        (Local.testStorage.pubAt q) = some (.file i) →
      (Local.run Local.testStorage FS.init Local.sampleOps).entry
        (Local.testStorage.privAt q) = some (.file i)) :=
  ⟨by decide, by decide, by decide,
    (C7_hard_link_invariant Local.testStorage FS.init Local.sampleOps (by decide)
      wellFormed_init (treesEmpty_init _) (by decide)).1⟩

/-! ## The names and files an operation changes -/

theorem Frame.unchanged (P Q : FPath → Prop) (fs : FS) : Frame P Q fs fs :=
  fun _ => Or.inl rfl

theorem Frame.compose {P Q : FPath → Prop} {a b c : FS} (h1 : Frame P Q a b)
    (h2 : Frame P Q b c) : Frame P Q a c := by
  intro x
  rcases h2 x with e2 | hp | ⟨hn, hd, hq⟩
  · rcases h1 x with e1 | hp | ⟨hn, hd, hq⟩
    · exact Or.inl (e2.trans e1)
    · exact Or.inr (Or.inl hp)
    · exact Or.inr (Or.inr ⟨hn, by rw [e2]; exact hd, hq⟩)
  · exact Or.inr (Or.inl hp)
  · rcases h1 x with e1 | hp | ⟨_, hd1, _⟩
    · exact Or.inr (Or.inr ⟨by rw [← e1]; exact hn, hd, hq⟩)
    · exact Or.inr (Or.inl hp)
    · rw [hn] at hd1; cases hd1

theorem Frame.weaken {P P2 Q Q2 : FPath → Prop} (hP : ∀ x, P x → P2 x)
    (hQ : ∀ x, Q x → Q2 x) {a b : FS} (h : Frame P Q a b) : Frame P2 Q2 a b := by
  intro x
  rcases h x with e | hp | ⟨hn, hd, hq⟩
  · exact Or.inl e
  · exact Or.inr (Or.inl (hP x hp))
  · exact Or.inr (Or.inr ⟨hn, hd, hQ x hq⟩)

theorem Frame.of_dirsAdded {P Q : FPath → Prop} {a b : FS} (h : DirsAdded Q a b) :
    Frame P Q a b := by
  intro x
  rcases h.entry_cases x with e | h3
  · exact Or.inl e
  · exact Or.inr (Or.inr h3)

/-- A step that changes the binding of one name of `P` at most. -/
theorem Frame.of_entries {P Q : FPath → Prop} {a b : FS} {p : FPath} (hp : P p)
    (h : ∀ x, x ≠ p → b.entry x = a.entry x) : Frame P Q a b := by
  intro x
  by_cases e : x = p
  · subst e; exact Or.inr (Or.inl hp)
  · exact Or.inl (h x e)

theorem Frame.of_delEntry {P Q : FPath → Prop} {a : FS} {p : FPath} {j : Nat} (hp : P p)
    (he : a.entry p = some (.file j)) : Frame P Q a (a.delEntry p) :=
  Frame.of_entries hp (fun x hx => by
    rw [entry_delEntry (isDots_of_entry_file he), if_neg hx])

theorem Frame.of_setEntry {P Q : FPath → Prop} {a : FS} {p : FPath} (n : Node) (hp : P p)
    (he : a.entry p = none) : Frame P Q a (a.setEntry p n) :=
  Frame.of_entries hp (fun x hx => by
    rw [entry_setEntry (isDots_of_entry_none he), if_neg hx])

theorem DirsAdded.next_eq {Q : FPath → Prop} {a b : FS} (h : DirsAdded Q a b) :
    b.next = a.next := by
  induction h with
  | refl => rfl
  | step _ hw he _ ih => exact ih

theorem stat_cwd (fs : FS) : os.Stat fs (some ⟨false, []⟩) = .ok .dir := by
  have h : (⟨false, []⟩ : FPath).pathErr = none := by decide
  simp [os.Stat, FS.stat, FS.walk, h, FS.walkFrom, FS.entry, FPath.isDots]

/-- The directories `checkAndCreateParentDirectory` makes are strict ancestors of
the path; for the empty path it makes none. -/
theorem checkParent_dirsAdded (fs : FS) (g : GoPath) :
    DirsAdded (fun x => ∃ a, g = some a ∧ x ∈ a.ancestors) fs
      (Local.checkAndCreateParentDirectory fs g).1 := by
  unfold Local.checkAndCreateParentDirectory
  cases g with
  | some a => exact (mkdirParent_dirsAdded fs a).mono (fun x hx => ⟨a, rfl, hx⟩)
  | none =>
    have h : mkdirIfNotExists fs (filepath.Dir none) = (fs, none) := by
      simp [mkdirIfNotExists, filepath.Dir, stat_cwd, errOf, os.IsNotExist]
    rw [h]
    exact DirsAdded.refl fs

theorem isObjectPath_priv {s : storageLocalFile} {paths : List String} {p : String}
    (hp : p ∈ paths) {a : FPath} (h : filepath.Join s.baseDir p = some a) :
    s.IsObjectPath paths a :=
  ⟨p, hp, Or.inl h⟩

theorem isObjectPath_pub {s : storageLocalFile} {paths : List String} {p : String}
    (hp : p ∈ paths) {a : FPath} (h : filepath.Join s.publicBaseDir p = some a) :
    s.IsObjectPath paths a :=
  ⟨p, hp, Or.inr h⟩

theorem checkParent_frame_priv (s : storageLocalFile) (fs : FS) {paths : List String}
    {p : String} (hp : p ∈ paths) :
    DirsAdded (s.IsOnTheWay paths) fs
      (Local.checkAndCreateParentDirectory fs (filepath.Join s.baseDir p)).1 :=
  (checkParent_dirsAdded fs _).mono (fun _ ⟨a, ha, hx⟩ => ⟨p, hp, a, Or.inl ha, hx⟩)

theorem checkParent_frame_pub (s : storageLocalFile) (fs : FS) {paths : List String}
    {p : String} (hp : p ∈ paths) :
    DirsAdded (s.IsOnTheWay paths) fs
      (Local.checkAndCreateParentDirectory fs (filepath.Join s.publicBaseDir p)).1 :=
  (checkParent_dirsAdded fs _).mono (fun _ ⟨a, ha, hx⟩ => ⟨p, hp, a, Or.inr ha, hx⟩)

/-- The guarded removal of a name of `P`. -/
theorem guarded_remove_frame {P Q : FPath → Prop} {fs : FS} {g : GoPath} {found : Bool}
    (hP : ∀ a, g = some a → P a) (hx : isFileExists fs g = .returned found) :
    ∃ fs1, (if found then os.Remove fs g else (fs, none)) = (fs1, none) ∧
      Frame P Q fs fs1 ∧ fs1.data = fs.data := by
  obtain ⟨fs1, hr, hcases⟩ := guarded_remove_spec hx
  refine ⟨fs1, hr, ?_⟩
  rcases hcases with ⟨_, e⟩ | ⟨_, a, i, ha, hs, e⟩
  · subst e; exact ⟨Frame.unchanged _ _ _, rfl⟩
  · subst e
    exact ⟨Frame.of_delEntry (hP a ha) ((stat_eq_ok_iff _ _ _).1 hs).2, rfl⟩

theorem link_frame {P Q : FPath → Prop} (fs : FS) (oldname newname : GoPath)
    (hP : ∀ a, newname = some a → P a) :
    Frame P Q fs (os.Link fs oldname newname).1 ∧
      (os.Link fs oldname newname).1.data = fs.data := by
  rcases link_spec fs oldname newname with ⟨e, hl⟩ | ⟨q, j, hq, _, _, he, hl⟩
  · rw [hl]; exact ⟨Frame.unchanged _ _ _, rfl⟩
  · rw [hl]; exact ⟨Frame.of_setEntry _ (hP q hq) he, rfl⟩

/-- What `makeObjectPublic` changes, whatever it returns: the public name of the
object, and directories on the way to it; no content. -/
theorem makeObjectPublic_frame (s : storageLocalFile) (fs : FS) {paths : List String}
    {p : String} (hp : p ∈ paths) :
    Frame (s.IsObjectPath paths) (s.IsOnTheWay paths) fs (Local.makeObjectPublic s fs p).1 ∧
      (Local.makeObjectPublic s fs p).1.data = fs.data := by
  unfold Local.makeObjectPublic
  simp only
  have hd := checkParent_frame_pub s fs hp
  rcases hc : Local.checkAndCreateParentDirectory fs (filepath.Join s.publicBaseDir p)
    with ⟨fs1, e1⟩
  rw [hc] at hd
  simp only at hd
  have hf1 : Frame (s.IsObjectPath paths) (s.IsOnTheWay paths) fs fs1 := Frame.of_dirsAdded hd
  have hd1 := hd.data_eq
  cases e1 with
  | some err => exact ⟨hf1, hd1⟩
  | none =>
    simp only
    cases hx : isFileExists fs1 (filepath.Join s.publicBaseDir p) with
    | panicked => exact ⟨hf1, hd1⟩
    | returned found =>
      simp only
      obtain ⟨fsr, hr, hfr, hdr⟩ := guarded_remove_frame (P := s.IsObjectPath paths)
        (Q := s.IsOnTheWay paths) (fun a ha => isObjectPath_pub hp ha) hx
      rw [hr]
      simp only
      have hl := link_frame (P := s.IsObjectPath paths) (Q := s.IsOnTheWay paths) fsr
        (filepath.Join s.baseDir p) (filepath.Join s.publicBaseDir p)
        (fun a ha => isObjectPath_pub hp ha)
      rcases hk : os.Link fsr (filepath.Join s.baseDir p) (filepath.Join s.publicBaseDir p)
        with ⟨fs3, e3⟩
      rw [hk] at hl
      simp only at hl
      have hres : Frame (s.IsObjectPath paths) (s.IsOnTheWay paths) fs fs3 ∧
          fs3.data = fs.data :=
        ⟨(hf1.compose hfr).compose hl.1, by rw [hl.2, hdr, hd1]⟩
      cases e3 with
      | some err => exact hres
      | none => exact hres

theorem create_data {fs fs2 : FS} {path : GoPath} {i : Nat}
    (h : os.Create fs path = .ok (fs2, i)) :
    (∀ k, k ≠ i → fs2.data k = fs.data k) ∧
    (i = fs.next ∨ ∃ a, path = some a ∧ fs.entry a = some (.file i)) := by
  cases path with
  | none => simp [os.Create] at h
  | some p =>
    unfold os.Create at h
    cases hw : fs.walk p with
    | error e => simp [hw] at h
    | ok u =>
      simp only [hw] at h
      cases he : fs.entry p with
      | none =>
        simp only [he, Except.ok.injEq, Prod.mk.injEq] at h
        obtain ⟨h1, h2⟩ := h
        subst h2
        subst h1
        refine ⟨?_, Or.inl rfl⟩
        intro k hk
        simp [FS.setData, FS.setEntry, hk]
      | some n =>
        cases n with
        | dir => simp [he] at h
        | file j =>
          simp only [he, Except.ok.injEq, Prod.mk.injEq] at h
          obtain ⟨h1, h2⟩ := h
          subst h2
          subst h1
          refine ⟨?_, Or.inr ⟨p, rfl, he⟩⟩
          intro k hk
          simp [FS.setData, hk]

theorem ioCopy_data (fs : FS) (file : Nat) (source : Bytes) (k : Nat) (hk : k ≠ file) :
    (io.Copy fs file source).1.data k = fs.data k := by
  unfold io.Copy
  cases fs.quota with
  | none => simp [FS.setData, hk]
  | some q =>
    by_cases h : source.length ≤ q
    · simp [h, FS.setData, hk]
    · simp [h, FS.setData, hk]

/-- What `Put` changes, whatever it returns: the names of the object in the two
trees and directories on the way to them; and the content of one file: a new
one, or the one bound to the private name of the object. -/
theorem put_frame (s : storageLocalFile) (fs : FS) {paths : List String} {p : String}
    (hp : p ∈ paths) (c : Bytes) (v : ObjectVisibility) :
    Frame (s.IsObjectPath paths) (s.IsOnTheWay paths) fs (Local.Put s fs p c v).1 ∧
    ∀ k, (Local.Put s fs p c v).1.data k = fs.data k ∨ fs.next ≤ k ∨
      ∃ a, filepath.Join s.baseDir p = some a ∧ fs.entry a = some (.file k) := by
  unfold Local.Put
  simp only
  have hd := checkParent_frame_priv s fs hp
  rcases hc : Local.checkAndCreateParentDirectory fs (filepath.Join s.baseDir p)
    with ⟨fs1, e1⟩
  rw [hc] at hd
  simp only at hd
  have hf1 : Frame (s.IsObjectPath paths) (s.IsOnTheWay paths) fs fs1 := Frame.of_dirsAdded hd
  have hd1 := hd.data_eq
  cases e1 with
  | some err => exact ⟨hf1, fun k => Or.inl (by rw [hd1])⟩
  | none =>
    simp only
    cases hcr : os.Create fs1 (filepath.Join s.baseDir p) with
    | error e => exact ⟨hf1, fun k => Or.inl (by rw [hd1])⟩
    | ok r =>
      obtain ⟨fsc, i⟩ := r
      simp only
      obtain ⟨a, ha, _, _, hent, _⟩ := create_spec hcr
      obtain ⟨hcd, hci⟩ := create_data hcr
      have hcopy := (ioCopy_spec fsc i c).2.1
      have hcopyd := ioCopy_data fsc i c
      rcases hio : io.Copy fsc i c with ⟨fs3, err⟩
      rw [hio] at hcopy hcopyd
      simp only at hcopy hcopyd
      have hf3 : Frame (s.IsObjectPath paths) (s.IsOnTheWay paths) fs fs3 :=
        hf1.compose (Frame.of_entries (isObjectPath_priv hp ha) (fun x hx => by
          rw [hcopy, hent, if_neg hx]))
      have hd3 : ∀ k, fs3.data k = fs.data k ∨ fs.next ≤ k ∨
          ∃ a, filepath.Join s.baseDir p = some a ∧ fs.entry a = some (.file k) := by
        intro k
        by_cases hk : k = i
        · subst hk
          rcases hci with e | ⟨b, hb, he⟩
          · exact Or.inr (Or.inl (by rw [e, hd.next_eq]))
          · exact Or.inr (Or.inr ⟨b, hb, hd.entry_file he⟩)
        · exact Or.inl (by rw [hcopyd k hk, hcd k hk, hd1])
      split
      · have hm := makeObjectPublic_frame s fs3 hp
        refine ⟨hf3.compose hm.1, ?_⟩
        intro k
        rw [hm.2]
        exact hd3 k
      · exact ⟨hf3, hd3⟩

/-- What `Delete` changes, whatever it returns: names of the objects in the two
trees; no content. -/
theorem delete_frame (s : storageLocalFile) (ps : List String) :
    ∀ (fs : FS) {paths : List String}, (∀ p ∈ ps, p ∈ paths) →
      Frame (s.IsObjectPath paths) (s.IsOnTheWay paths) fs (Local.Delete s fs ps).1 ∧
      (Local.Delete s fs ps).1.data = fs.data := by
  induction ps with
  | nil => intro fs paths _; exact ⟨Frame.unchanged _ _ _, rfl⟩
  | cons p rest ih =>
    intro fs paths hsub
    have hp : p ∈ paths := hsub p (by simp)
    have hrest : ∀ q ∈ rest, q ∈ paths := fun q hq => hsub q (by simp [hq])
    unfold Local.Delete
    simp only
    cases hx : isFileExists fs (filepath.Join s.publicBaseDir p) with
    | panicked => exact ⟨Frame.unchanged _ _ _, rfl⟩
    | returned pubFound =>
      simp only
      obtain ⟨fs1, hr, hf1, hd1⟩ := guarded_remove_frame (P := s.IsObjectPath paths)
        (Q := s.IsOnTheWay paths) (fun a ha => isObjectPath_pub hp ha) hx
      rw [hr]
      simp only
      cases hy : isFileExists fs1 (filepath.Join s.baseDir p) with
      | panicked => exact ⟨hf1, hd1⟩
      | returned privFound =>
        simp only
        obtain ⟨fs2, hr2, hf2, hd2⟩ := guarded_remove_frame (P := s.IsObjectPath paths)
          (Q := s.IsOnTheWay paths) (fun a ha => isObjectPath_priv hp ha) hy
        rw [hr2]
        simp only
        have h3 := ih fs2 hrest
        exact ⟨(hf1.compose hf2).compose h3.1, by rw [h3.2, hd2, hd1]⟩

/-- What `Copy` changes, whatever it returns: directories on the way to the
private names of the two objects; no content. -/
theorem copy_frame (s : storageLocalFile) (fs : FS) {paths : List String}
    {src dst : String} (hsrc : src ∈ paths) (hdst : dst ∈ paths) :
    DirsAdded (s.IsOnTheWay paths) fs (Local.Copy s fs src dst).1 := by
  unfold Local.Copy
  simp only
  have hd := checkParent_frame_priv s fs hsrc
  rcases hc : Local.checkAndCreateParentDirectory fs (filepath.Join s.baseDir src)
    with ⟨fs1, e1⟩
  rw [hc] at hd
  cases e1 with
  | some err => exact hd
  | none =>
    simp only
    cases os.Open fs1 (filepath.Join s.baseDir src) with
    | error e => exact hd
    | ok h =>
      simp only
      have hd2 := checkParent_frame_priv s fs1 hdst
      rcases hc2 : Local.checkAndCreateParentDirectory fs1 (filepath.Join s.baseDir dst)
        with ⟨fs2, e2⟩
      rw [hc2] at hd2
      cases e2 with
      | some err => exact hd.trans hd2
      | none =>
        simp only
        cases os.Open fs2 (filepath.Join s.baseDir dst) with
        | error e => exact hd.trans hd2
        | ok h2 => exact hd.trans hd2

/-- What `SetVisibility` changes, whatever it returns: the public name of the
object and directories on the way to it; no content. -/
theorem setVisibility_frame (s : storageLocalFile) (fs : FS) {paths : List String}
    {p : String} (hp : p ∈ paths) (v : ObjectVisibility) :
    Frame (s.IsObjectPath paths) (s.IsOnTheWay paths) fs (Local.SetVisibility s fs p v).1 ∧
      (Local.SetVisibility s fs p v).1.data = fs.data := by
  unfold Local.SetVisibility
  simp only
  split
  · cases hx : isFileExists fs (filepath.Join s.publicBaseDir p) with
    | panicked => exact ⟨Frame.unchanged _ _ _, rfl⟩
    | returned found =>
      simp only
      cases found with
      | false => exact ⟨Frame.unchanged _ _ _, rfl⟩
      | true =>
        obtain ⟨q, j, hq, hs⟩ := isFileExists_true hx
        rw [hq]
        have hrm : os.Remove fs (some q) = (fs.delEntry q, none) := by
          simp [os.Remove, hs]
        simp only [hrm, if_true]
        exact ⟨Frame.of_delEntry (isObjectPath_pub hp hq) ((stat_eq_ok_iff _ _ _).1 hs).2, rfl⟩
  · split
    · cases hx : isFileExists fs (filepath.Join s.publicBaseDir p) with
      | panicked => exact ⟨Frame.unchanged _ _ _, rfl⟩
      | returned found =>
        simp only
        cases found with
        | true => exact ⟨Frame.unchanged _ _ _, rfl⟩
        | false =>
          simp only [Bool.not_false, if_true]
          exact makeObjectPublic_frame s fs hp
    · exact ⟨Frame.unchanged _ _ _, rfl⟩

/-- What a call changes, for all inputs and whatever it returns: each name whose
binding changes is the path of one of its objects in the private or the public
tree, or was unbound and is now a directory on the way to such a path; each file
whose content changes is new or is bound to the private path of one of its
objects. -/
theorem apply_frame (s : storageLocalFile) (fs : FS) (op : Local.Op) :
    Frame (s.IsObjectPath op.paths) (s.IsOnTheWay op.paths) fs (op.apply s fs) ∧
    ∀ k, (op.apply s fs).data k = fs.data k ∨ fs.next ≤ k ∨
      ∃ p ∈ op.paths, ∃ a, filepath.Join s.baseDir p = some a ∧
        fs.entry a = some (.file k) := by
  cases op with
  | Put p c v =>
    have h := @put_frame s fs [p] p (by simp) c v
    refine ⟨h.1, fun k => ?_⟩
    rcases h.2 k with e | e | ⟨a, ha, he⟩
    · exact Or.inl e
    · exact Or.inr (Or.inl e)
    · exact Or.inr (Or.inr ⟨p, by simp [Local.Op.paths], a, ha, he⟩)
  | Delete ps =>
    have h := @delete_frame s ps fs ps (fun _ hq => hq)
    exact ⟨h.1, fun k => Or.inl (by simp only [Local.Op.apply]; rw [h.2])⟩
  | Copy src dst =>
    have h := @copy_frame s fs [src, dst] src dst (by simp) (by simp)
    exact ⟨Frame.of_dirsAdded h, fun k => Or.inl (by simp only [Local.Op.apply]; rw [h.data_eq])⟩
  | SetVisibility p v =>
    have h := @setVisibility_frame s fs [p] p (by simp) v
    exact ⟨h.1, fun k => Or.inl (by simp only [Local.Op.apply]; rw [h.2])⟩

/-- A strict ancestor of a path in the tree at `a` lies in the tree or is a
strict ancestor of `a`. -/
theorem ancestors_append (a : FPath) (q : List String) (hq : ".." ∉ q) (x : FPath)
    (hx : x ∈ (⟨a.rooted, a.comps ++ q⟩ : FPath).ancestors) :
    a.within x ∨ x ∈ a.ancestors := by
  obtain ⟨hr, _, hpre⟩ := mem_ancestors hx
  simp only at hr hpre
  rcases Nat.lt_or_ge x.comps.length a.comps.length with hl | hl
  · right
    exact mem_ancestors_intro hr hl
      (List.prefix_of_prefix_length_le hpre (List.prefix_append _ _) (Nat.le_of_lt hl))
  · left
    have hax : a.comps <+: x.comps :=
      List.prefix_of_prefix_length_le (List.prefix_append _ _) hpre hl
    obtain ⟨t, ht⟩ := hax
    refine ⟨hr.symm, ⟨t, ht⟩, ?_⟩
    rw [← ht, List.drop_left]
    rw [← ht] at hpre
    have htq : t <+: q := (List.prefix_append_right_inj _).1 hpre
    intro hm
    exact hq (htq.subset hm)

/-- C6, counterexample.  Joined to the root `storage-test/private`, the object
paths `../x` and `a/../../x` give `storage-test/x`, which is neither the root nor
below it; joined to the empty root, the object path `/x` gives the rooted path
`/x`, which is not below the working directory.  The operations use these paths:
on the storage of the tests, `Put("../x", [1], private)` returns nil and binds
the name `storage-test/x`, which lies in neither tree, to a new file, and `Read`
of the same object path yields the content of that file. -/
theorem C6_put_writes_outside_root :
    filepath.Join "storage-test/private" "../x" = some ⟨false, ["storage-test", "x"]⟩ ∧
    filepath.Join "storage-test/private" "a/../../x" = some ⟨false, ["storage-test", "x"]⟩ ∧
    cleanPath "storage-test/private" = ⟨false, ["storage-test", "private"]⟩ ∧
    (¬ ∃ q, filepath.Join "storage-test/private" "../x" = some q ∧
        (cleanPath "storage-test/private").within q) ∧
    filepath.Join "" "/x" = some ⟨true, ["x"]⟩ ∧
    ¬ (cleanPath "").within ⟨true, ["x"]⟩ ∧
    FS.init.entry ⟨false, ["storage-test", "x"]⟩ = none ∧
    (Local.Put Local.testStorage FS.init "../x" [1] ObjectPrivate).2 = .returned none ∧
    (Local.Put Local.testStorage FS.init "../x" [1] ObjectPrivate).1.entry
      ⟨false, ["storage-test", "x"]⟩ = some (.file 0) ∧
    ¬ (cleanPath Local.testStorage.baseDir).within ⟨false, ["storage-test", "x"]⟩ ∧
    ¬ (cleanPath Local.testStorage.publicBaseDir).within ⟨false, ["storage-test", "x"]⟩ ∧
    Local.ReadAll Local.testStorage
      (Local.Put Local.testStorage FS.init "../x" [1] ObjectPrivate).1 "../x" = .ok [1] := by
  refine ⟨by decide, by decide, by decide, ?_, by decide, by decide, by decide, by decide,
    by decide, by decide, by decide, by decide⟩
  rintro ⟨q, hq, hw⟩
  have h : filepath.Join "storage-test/private" "../x" = some ⟨false, ["storage-test", "x"]⟩ := by
    decide
  rw [h] at hq
  cases hq
  revert hw
  decide

/-- C6, amended.  Let both roots be non-empty and let no object path of a call
of `Put`, `Delete`, `Copy` or `SetVisibility` climb above the directory it starts
in (each `..` element removes an earlier element of the object path).  Then, for
every file system and whatever the call returns:
each object path joined to a root gives the cleaned root or a path below it, and
this is the path `Read` opens;
every name whose binding the call changes lies in the tree at the private root or
in the tree at the public root, or was unbound and is now a directory on the way
to one of the roots;
and every file whose content the call changes is a new one or is bound to a name
in the tree at the private root. -/
theorem C6_operations_stay_inside_roots (s : storageLocalFile) (fs : FS) (op : Local.Op)
    (h1 : s.baseDir ≠ "") (h2 : s.publicBaseDir ≠ "")
    (hp : ∀ p ∈ op.paths, insideRoot p = true) :
    (∀ p ∈ op.paths, ∃ a b, filepath.Join s.baseDir p = some a ∧
        filepath.Join s.publicBaseDir p = some b ∧
        (cleanPath s.baseDir).within a ∧ (cleanPath s.publicBaseDir).within b ∧
        Local.Read s fs p = os.Open fs (some a)) ∧
    (∀ x, (op.apply s fs).entry x = fs.entry x ∨
        (cleanPath s.baseDir).within x ∨ (cleanPath s.publicBaseDir).within x ∨
        (fs.entry x = none ∧ (op.apply s fs).entry x = some .dir ∧
          (x ∈ (cleanPath s.baseDir).ancestors ∨
            x ∈ (cleanPath s.publicBaseDir).ancestors))) ∧
    (∀ k, (op.apply s fs).data k = fs.data k ∨ fs.next ≤ k ∨
        ∃ x, (cleanPath s.baseDir).within x ∧ fs.entry x = some (.file k)) := by
  have hpriv : ∀ p ∈ op.paths, ∀ a, filepath.Join s.baseDir p = some a →
      a = ⟨(cleanPath s.baseDir).rooted, (cleanPath s.baseDir).comps ++ relComps p⟩ := by
    intro p hmem a ha
    rw [join_inside s.baseDir p h1 (hp p hmem)] at ha
    cases ha
    rfl
  have hpub : ∀ p ∈ op.paths, ∀ a, filepath.Join s.publicBaseDir p = some a →
      a = ⟨(cleanPath s.publicBaseDir).rooted,
        (cleanPath s.publicBaseDir).comps ++ relComps p⟩ := by
    intro p hmem a ha
    rw [join_inside s.publicBaseDir p h2 (hp p hmem)] at ha
    cases ha
    rfl
  obtain ⟨hframe, hdata⟩ := apply_frame s fs op
  refine ⟨?_, ?_, ?_⟩
  · intro p hmem
    refine ⟨_, _, join_inside s.baseDir p h1 (hp p hmem),
      join_inside s.publicBaseDir p h2 (hp p hmem),
      within_append _ _ (relComps_no_dotdot p (hp p hmem)),
      within_append _ _ (relComps_no_dotdot p (hp p hmem)), ?_⟩
    unfold Local.Read
    rw [join_inside s.baseDir p h1 (hp p hmem)]
  · intro x
    rcases hframe x with e | ⟨p, hmem, h | h⟩ | ⟨hn, hd, p, hmem, a, h | h, hx⟩
    · exact Or.inl e
    · rw [hpriv p hmem x h]
      exact Or.inr (Or.inl (within_append _ _ (relComps_no_dotdot p (hp p hmem))))
    · rw [hpub p hmem x h]
      exact Or.inr (Or.inr (Or.inl (within_append _ _ (relComps_no_dotdot p (hp p hmem)))))
    · rw [hpriv p hmem a h] at hx
      rcases ancestors_append _ _ (relComps_no_dotdot p (hp p hmem)) x hx with hw | ha
      · exact Or.inr (Or.inl hw)
      · exact Or.inr (Or.inr (Or.inr ⟨hn, hd, Or.inl ha⟩))
    · rw [hpub p hmem a h] at hx
      rcases ancestors_append _ _ (relComps_no_dotdot p (hp p hmem)) x hx with hw | ha
      · exact Or.inr (Or.inr (Or.inl hw))
      · exact Or.inr (Or.inr (Or.inr ⟨hn, hd, Or.inr ha⟩))
  · intro k
    rcases hdata k with e | e | ⟨p, hmem, a, ha, he⟩
    · exact Or.inl e
    · exact Or.inr (Or.inl e)
    · refine Or.inr (Or.inr ⟨a, ?_, he⟩)
      rw [hpriv p hmem a ha]
      exact within_append _ _ (relComps_no_dotdot p (hp p hmem))

/-- C6, witness of the amended statement: the storage of the tests, the file
system with no object, and a public `Put` of the object path `/a/../b/./c`. -/
theorem C6_operations_stay_inside_roots_witness :
    Local.testStorage.baseDir ≠ "" ∧ Local.testStorage.publicBaseDir ≠ "" ∧
    (∀ p ∈ (Local.Op.Put "/a/../b/./c" [1] ObjectPublicRead).paths, insideRoot p = true) ∧
    filepath.Join Local.testStorage.baseDir "/a/../b/./c" =
      some ⟨false, ["storage-test", "private", "b", "c"]⟩ ∧
    ((Local.Op.Put "/a/../b/./c" [1] ObjectPublicRead).apply Local.testStorage FS.init).entry
      ⟨false, ["storage-test", "public", "b", "c"]⟩ = some (.file 0) ∧
    (∀ x, ((Local.Op.Put "/a/../b/./c" [1] ObjectPublicRead).apply Local.testStorage
          FS.init).entry x = FS.init.entry x ∨
        (cleanPath Local.testStorage.baseDir).within x ∨
        (cleanPath Local.testStorage.publicBaseDir).within x ∨
        (FS.init.entry x = none ∧
          ((Local.Op.Put "/a/../b/./c" [1] ObjectPublicRead).apply Local.testStorage
            FS.init).entry x = some .dir ∧
          (x ∈ (cleanPath Local.testStorage.baseDir).ancestors ∨
            x ∈ (cleanPath Local.testStorage.publicBaseDir).ancestors))) :=
  ⟨by decide, by decide, by decide, by decide, by decide,
    (C6_operations_stay_inside_roots Local.testStorage FS.init
      (.Put "/a/../b/./c" [1] ObjectPublicRead) (by decide) (by decide) (by decide)).2.1⟩

/-! ## What the remote backend and `Delete` do apart from the failing inputs -/

/-- The floor of `TemporaryURL` for every duration: `SignURL` is handed the larger
of the requested duration and 24 hours, as a count of nanoseconds. -/
theorem temporaryURL_floor (objectPath : String) (expireIn : Duration) :
    OSS.TemporaryURL objectPath expireIn =
      .SignURL objectPath oss.HTTPGet (max expireIn OSS.ossSignedURLExpire) := by
  unfold OSS.TemporaryURL
  by_cases h : expireIn < OSS.ossSignedURLExpire
  · simp [h, max_eq_right (le_of_lt h)]
  · simp [h, max_eq_left (not_lt.mp h)]

/-- The keys of the remote backend: every method except `TemporaryURL` and the
bulk case of `Delete` hands the SDK the cleaned object path; `Delete` of no path
issues no call. -/
theorem oss_keys_cleaned (p q : String) (source : Bytes) (acl : String) (rest : List String) :
    OSS.Read p = .GetObject (OSS.cleanOSSObjectPath p) ∧
    (∀ v, OSS.getACLOSSOrError v = .ok acl →
      OSS.Put p source v = .ok (.PutObject (OSS.cleanOSSObjectPath p) source acl) ∧
      OSS.SetVisibility p v = .ok (.SetObjectACL (OSS.cleanOSSObjectPath p) acl)) ∧
    OSS.Delete [] = none ∧
    OSS.Delete [p] = some (.DeleteObject (OSS.cleanOSSObjectPath p)) ∧
    OSS.Delete (p :: q :: rest) = some (.DeleteObjects (p :: q :: rest)) ∧
    OSS.Copy p q = .CopyObject (OSS.cleanOSSObjectPath p) (OSS.cleanOSSObjectPath q) ∧
    OSS.Size p = .GetObjectMeta (OSS.cleanOSSObjectPath p) ∧
    OSS.LastModified p = .GetObjectMeta (OSS.cleanOSSObjectPath p) ∧
    OSS.Exist p = .IsObjectExist (OSS.cleanOSSObjectPath p) ∧
    (∀ answer, (OSS.GetVisibility p answer).1 = .GetObjectACL (OSS.cleanOSSObjectPath p)) := by
  refine ⟨rfl, ?_, rfl, rfl, rfl, rfl, rfl, rfl, rfl, fun _ => rfl⟩
  intro v hv
  simp [OSS.Put, OSS.SetVisibility, hv]

theorem exist_of_stat_enoent_or_dir {s : storageLocalFile} {fs : FS} {p : String}
    (h : os.Stat fs (filepath.Join s.baseDir p) = .error .ENOENT ∨
      os.Stat fs (filepath.Join s.baseDir p) = .ok .dir) :
    Local.Exist s fs p = (false, none) := by
  unfold Local.Exist
  rcases h with h | h <;> simp [h, os.IsNotExist, Node.IsDir]

/-- What `Delete` of one object does when it does not panic: it returns no error,
and afterwards `Exist` returns false and no error. -/
theorem delete_returned_then_exist {s : storageLocalFile} {fs fs2 : FS} {p : String}
    {e : Option GoErr} (h : Local.Delete s fs [p] = (fs2, .returned e)) :
    e = none ∧ Local.Exist s fs2 p = (false, none) := by
  unfold Local.Delete at h
  simp only at h
  cases hx : isFileExists fs (filepath.Join s.publicBaseDir p) with
  | panicked => rw [hx] at h; simp at h
  | returned pubFound =>
    rw [hx] at h
    simp only at h
    obtain ⟨fs1, hr, _⟩ := guarded_remove_spec hx
    rw [hr] at h
    simp only at h
    cases hy : isFileExists fs1 (filepath.Join s.baseDir p) with
    | panicked => rw [hy] at h; simp at h
    | returned privFound =>
      rw [hy] at h
      simp only at h
      obtain ⟨fsr, hr2, hcases⟩ := guarded_remove_spec hy
      rw [hr2] at h
      simp only [Local.Delete, Prod.mk.injEq, Outcome.returned.injEq] at h
      obtain ⟨h1, h2⟩ := h
      subst h1
      refine ⟨h2.symm, ?_⟩
      apply exist_of_stat_enoent_or_dir
      rcases hcases with ⟨hf, e1⟩ | ⟨_, a, i, ha, hs, e1⟩
      · subst e1; subst hf
        cases hj : filepath.Join s.baseDir p with
        | none => exact Or.inl rfl
        | some a =>
          rw [hj] at hy
          exact isFileExists_false hy
      · rw [ha, e1]
        left
        have hw := ((stat_eq_ok_iff _ _ _).1 hs).1
        simp only [os.Stat]
        unfold FS.stat
        have hdots := isDots_of_entry_file ((stat_eq_ok_iff _ _ _).1 hs).2
        rw [walk_delEntry_self hdots, hw]
        simp [entry_delEntry hdots]

/-- What `Delete` does for an object that neither tree holds, when the check of
either path does not panic: it returns no error and leaves the file system as it
is. -/
theorem delete_absent_unchanged {s : storageLocalFile} {fs : FS} {p : String}
    (h1 : isFileExists fs (filepath.Join s.publicBaseDir p) = .returned false)
    (h2 : isFileExists fs (filepath.Join s.baseDir p) = .returned false) :
    (Local.Delete s fs [p]).2 = .returned none ∧
    (Local.Delete s fs [p]).1.entries = fs.entries ∧
    (Local.Delete s fs [p]).1.data = fs.data := by
  simp [Local.Delete, h1, h2]

/-- The panic of `isFileExists` is not special to ENOTDIR: an object path with a
NUL character makes `os.Stat` fail with EINVAL, and `Delete` panics. -/
theorem delete_panics_on_nul :
    os.Stat FS.init (filepath.Join Local.testStorage.publicBaseDir "a\x00b") = .error .EINVAL ∧
    (Local.Delete Local.testStorage FS.init ["a\x00b"]).2 = .panicked := by
  decide
end GoStorage
